import Mathlib

/-!
# SecureHash256 (src/secureHash256.cpp): a shallow embedding

`HashWord` is `uint32_t` and `size_t` is a 64-bit unsigned integer.  Both are
represented by `Nat`, with an explicit reduction `% 2^32` (resp. `% 2^64`)
wherever the C++ arithmetic can wrap.  Bytes (`unsigned char`) are naturals
below 256.

A `const unsigned char*` argument is represented by the list of the bytes
stored in the buffer in front of the terminating zero byte that `c_str()`
always appends; the list itself may contain zero bytes (a `std::string` may),
and `strlen` stops at the first of them.
-/

namespace SecureHash256

/-! ## Tables and constants -/

/-- Initial hash values (`initialStates[8]`). -/
def initialStates : List Nat :=
  [0x6a09e667, 0xbb67ae85, 0x3c6ef372, 0xa54ff53a,
   0x510e527f, 0x9b05688c, 0x1f83d9ab, 0x5be0cd19]

/-- Round constants (`roundConstants[64]`). -/
def roundConstants : List Nat :=
  [0x428a2f98, 0x71374491, 0xb5c0fbcf, 0xe9b5dba5, 0x3956c25b, 0x59f111f1, 0x923f82a4, 0xab1c5ed5] ++
  [0xd807aa98, 0x12835b01, 0x243185be, 0x550c7dc3, 0x72be5d74, 0x80deb1fe, 0x9bdc06a7, 0xc19bf174] ++
  [0xe49b69c1, 0xefbe4786, 0x0fc19dc6, 0x240ca1cc, 0x2de92c6f, 0x4a7484aa, 0x5cb0a9dc, 0x76f988da] ++
  [0x983e5152, 0xa831c66d, 0xb00327c8, 0xbf597fc7, 0xc6e00bf3, 0xd5a79147, 0x06ca6351, 0x14292967] ++
  [0x27b70a85, 0x2e1b2138, 0x4d2c6dfc, 0x53380d13, 0x650a7354, 0x766a0abb, 0x81c2c92e, 0x92722c85] ++
  [0xa2bfe8a1, 0xa81a664b, 0xc24b8b70, 0xc76c51a3, 0xd192e819, 0xd6990624, 0xf40e3585, 0x106aa070] ++
  [0x19a4c116, 0x1e376c08, 0x2748774c, 0x34b0bcb5, 0x391c0cb3, 0x4ed8aa4a, 0x5b9cca4f, 0x682e6ff3] ++
  [0x748f82ee, 0x78a5636f, 0x84c87814, 0x8cc70208, 0x90befffa, 0xa4506ceb, 0xbef9a3f7, 0xc67178f2]

def BLOCK_SEQUENCE_LEN : Nat := 16
def HASH_ARRAY_LEN : Nat := 8
def SCHEDULE_ARRAY_LEN : Nat := 64
def BLOCK_SIZE : Nat := 512
def BYTE_LENGTH : Nat := 8
def WORD_SIZE : Nat := 4

/-! ## Core operations (the macros), on 32-bit words -/

/-- `CHOOSE(x,y,z) ((x & y) ^ (~x & z))`; `~x` is the 32-bit complement. -/
def CHOOSE (x y z : Nat) : Nat := (x &&& y) ^^^ ((2^32 - 1 - x) &&& z)

/-- `MAJORITY(x,y,z) ((x & y) ^ (x & z) ^ (y & z))`. -/
def MAJORITY (x y z : Nat) : Nat := (x &&& y) ^^^ (x &&& z) ^^^ (y &&& z)

/-- `ROTATE_RIGHT(x, n) ((x >> n) | (x << ((sizeof(x) << 3) - n)))` with
`sizeof(x) = 4`; the left shift is truncated to 32 bits. -/
def ROTATE_RIGHT (x n : Nat) : Nat := (x >>> n) ||| ((x <<< ((4 <<< 3) - n)) % 2^32)

def SIGMA0 (x : Nat) : Nat := ROTATE_RIGHT x 2 ^^^ ROTATE_RIGHT x 13 ^^^ ROTATE_RIGHT x 22
def SIGMA1 (x : Nat) : Nat := ROTATE_RIGHT x 6 ^^^ ROTATE_RIGHT x 11 ^^^ ROTATE_RIGHT x 25
def LOWERCASE_SIGMA0 (x : Nat) : Nat := ROTATE_RIGHT x 7 ^^^ ROTATE_RIGHT x 18 ^^^ (x >>> 3)
def LOWERCASE_SIGMA1 (x : Nat) : Nat := ROTATE_RIGHT x 17 ^^^ ROTATE_RIGHT x 19 ^^^ (x >>> 10)

/-! ## prepareMessage -/

/-- The C library `strlen`: the number of bytes in front of the first zero
byte (the buffer ends with a zero byte that is not part of the list). -/
def strlen : List Nat → Nat
  | [] => 0
  | c :: cs => if c = 0 then 0 else strlen cs + 1

/-- The innermost loop of `prepareMessage` (`k = 0 .. WORD_SIZE-1`): assembles
word `j` of block `i`.  `index = i*64 + j*4 + k` cannot wrap, because
`i < blockCount < 2^55`. -/
def assembleWord (input : List Nat) (messageLength i j : Nat) : Nat :=
  (List.range WORD_SIZE).foldl (fun currentWord k =>
    let index := i * 64 + j * 4 + k
    if index < messageLength then
      (currentWord <<< 8 ||| input.getD index 0) % 2^32
    else if index = messageLength then
      (currentWord <<< 8 ||| 0x80) % 2^32
    else
      (currentWord <<< 8 ||| 0x00) % 2^32) 0x00

/-- `appendLength(messageLength, lowBits, highBits)`: the new values of the two
reference parameters, `(lowBits, highBits)`.  The assignment of a `size_t` to a
`HashWord` keeps the low 32 bits. -/
def appendLength (messageLength : Nat) (_lowBits _highBits : Nat) : Nat × Nat :=
  (messageLength % 2^32, 0x00)

/-- `bitLength = messageLength * BYTE_LENGTH` in `size_t`. -/
def bitLengthOf (messageLength : Nat) : Nat := messageLength * BYTE_LENGTH % 2^64

/-- `paddingBits = (448 - 1 - bitLength) % BLOCK_SIZE`; the subtraction is done
in `size_t` and wraps around when `bitLength > 447`. -/
def paddingBitsOf (bitLength : Nat) : Nat :=
  (2^64 + (448 - 1) - bitLength % 2^64) % 2^64 % BLOCK_SIZE

/-- `blockCount = (bitLength + 1 + paddingBits + 64) / BLOCK_SIZE` in `size_t`. -/
def blockCountOf (bitLength paddingBits : Nat) : Nat :=
  (bitLength + 1 + paddingBits + 64) % 2^64 / BLOCK_SIZE

/-- `prepareMessage(input, blockCount)`: the blocks and the value stored in the
reference parameter `blockCount`. -/
def prepareMessage (input : List Nat) : List (List Nat) × Nat :=
  let messageLength := strlen input
  let bitLength := bitLengthOf messageLength
  let paddingBits := paddingBitsOf bitLength
  let blockCount := blockCountOf bitLength paddingBits
  let blocks := (List.range blockCount).map (fun i =>
    (List.range BLOCK_SEQUENCE_LEN).map (fun j => assembleWord input messageLength i j))
  let last := blocks.getD (blockCount - 1) []
  let lh := appendLength bitLength (last.getD (BLOCK_SEQUENCE_LEN - 1) 0)
    (last.getD (BLOCK_SEQUENCE_LEN - 2) 0)
  let last := last.set (BLOCK_SEQUENCE_LEN - 1) lh.1
  let last := last.set (BLOCK_SEQUENCE_LEN - 2) lh.2
  (blocks.set (blockCount - 1) last, blockCount)

/-! ## processBlocks -/

/-- The schedule extension loop body at index `j`. -/
def extendStep (schedule : List Nat) (j : Nat) : List Nat :=
  schedule.set j ((schedule.getD (j - 16) 0 + LOWERCASE_SIGMA0 (schedule.getD (j - 15) 0) +
    schedule.getD (j - 7) 0 + LOWERCASE_SIGMA1 (schedule.getD (j - 2) 0)) % 2^32)

/-- The main compression loop body at round `j`: the two temporaries, then the
eight assignments to `workingVars[7]` down to `workingVars[0]`, in the order of
the source. -/
def roundStep (schedule : List Nat) (workingVars : List Nat) (j : Nat) : List Nat :=
  let temp1 := (workingVars.getD 7 0 + SIGMA1 (workingVars.getD 4 0) +
    CHOOSE (workingVars.getD 4 0) (workingVars.getD 5 0) (workingVars.getD 6 0) +
    roundConstants.getD j 0 + schedule.getD j 0) % 2^32
  let temp2 := (SIGMA0 (workingVars.getD 0 0) +
    MAJORITY (workingVars.getD 0 0) (workingVars.getD 1 0) (workingVars.getD 2 0)) % 2^32
  let workingVars := workingVars.set 7 (workingVars.getD 6 0)
  let workingVars := workingVars.set 6 (workingVars.getD 5 0)
  let workingVars := workingVars.set 5 (workingVars.getD 4 0)
  let workingVars := workingVars.set 4 ((workingVars.getD 3 0 + temp1) % 2^32)
  let workingVars := workingVars.set 3 (workingVars.getD 2 0)
  let workingVars := workingVars.set 2 (workingVars.getD 1 0)
  let workingVars := workingVars.set 1 (workingVars.getD 0 0)
  let workingVars := workingVars.set 0 ((temp1 + temp2) % 2^32)
  workingVars

/-- The local and output arrays that `processBlocks` mutates. -/
structure Buffers where
  workingVars : List Nat
  schedule : List Nat
  hashValues : List Nat

/-- One iteration of the outer loop of `processBlocks`, for block `i`. -/
def blockStep (messageBlocks : List (List Nat)) (s : Buffers) (i : Nat) : Buffers :=
  -- memcpy(schedule, messageBlocks[i], 16 words)
  let schedule := (messageBlocks.getD i []).take BLOCK_SEQUENCE_LEN ++
    s.schedule.drop BLOCK_SEQUENCE_LEN
  let schedule := ((List.range (SCHEDULE_ARRAY_LEN - 16)).map (· + 16)).foldl extendStep schedule
  -- memcpy(workingVars, hashValues, 8 words)
  let workingVars := s.hashValues.take HASH_ARRAY_LEN ++ s.workingVars.drop HASH_ARRAY_LEN
  let workingVars := (List.range SCHEDULE_ARRAY_LEN).foldl (roundStep schedule) workingVars
  let hashValues := (List.range HASH_ARRAY_LEN).foldl (fun hv j =>
    hv.set j ((hv.getD j 0 + workingVars.getD j 0) % 2^32)) s.hashValues
  { workingVars := workingVars, schedule := schedule, hashValues := hashValues }

/-- The first part of an iteration of the outer loop of `processBlocks`: the
`memcpy` of the block `messageBlock` into `schedule` and the loop that extends
the schedule; the content of `schedule` afterwards. -/
def extendSchedule (messageBlock schedule : List Nat) : List Nat :=
  let schedule := messageBlock.take BLOCK_SEQUENCE_LEN ++ schedule.drop BLOCK_SEQUENCE_LEN
  ((List.range (SCHEDULE_ARRAY_LEN - 16)).map (· + 16)).foldl extendStep schedule

/-- The second part of an iteration of the outer loop of `processBlocks`, for
a given content of `schedule`: the `memcpy` of `hashValues` into
`workingVars`, the main compression loop and the update of the hash values;
the contents of `workingVars` and `hashValues` afterwards. -/
def compressBlock (schedule workingVars hashValues : List Nat) : List Nat × List Nat :=
  let workingVars := hashValues.take HASH_ARRAY_LEN ++ workingVars.drop HASH_ARRAY_LEN
  let workingVars := (List.range SCHEDULE_ARRAY_LEN).foldl (roundStep schedule) workingVars
  let hashValues := (List.range HASH_ARRAY_LEN).foldl (fun hv j =>
    hv.set j ((hv.getD j 0 + workingVars.getD j 0) % 2^32)) hashValues
  (workingVars, hashValues)

/-- The body of `processBlocks(messageBlocks, blockCount, hashValues)` for
given initial contents of the two local arrays (the source does not initialise
them): the content of `hashValues` afterwards. -/
def processBlocksFrom (workingVars schedule : List Nat) (messageBlocks : List (List Nat))
    (blockCount : Nat) (hashValues : List Nat) : List Nat :=
  -- memcpy(hashValues, initialStates, 8 words)
  let hashValues := initialStates.take HASH_ARRAY_LEN ++ hashValues.drop HASH_ARRAY_LEN
  ((List.range blockCount).foldl (blockStep messageBlocks)
    { workingVars := workingVars, schedule := schedule, hashValues := hashValues }).hashValues

/-- `processBlocks(messageBlocks, blockCount, hashValues)`, the local arrays
taken as zero-filled; every element of them is written before it is read, so
that the choice does not matter (`processBlocksFrom_eq`). -/
def processBlocks (messageBlocks : List (List Nat)) (blockCount : Nat)
    (hashValues : List Nat) : List Nat :=
  processBlocksFrom (List.replicate HASH_ARRAY_LEN 0) (List.replicate SCHEDULE_ARRAY_LEN 0)
    messageBlocks blockCount hashValues

/-! ## generateDigest -/

/-- `ss << std::hex << std::setw(8) << std::setfill('0') << v`: the lowercase
hexadecimal numeral of `v` without leading zeros, right-aligned in a field of
width 8 that is filled with the character 0. -/
def streamHex (v : Nat) : List Char :=
  let numeral := Nat.toDigits 16 v
  List.replicate (8 - numeral.length) '0' ++ numeral

/-- `generateDigest(hashValues)`. -/
def generateDigest (hashValues : List Nat) : String :=
  String.mk ((List.range HASH_ARRAY_LEN).foldl
    (fun ss i => ss ++ streamHex (hashValues.getD i 0)) [])

/-- `calculateHash(input)`; the array `new HashWord[8]` is not initialised by
the source and is overwritten by `processBlocks` (it is zero-filled here). -/
def calculateHash (input : List Nat) : String :=
  let pm := prepareMessage input
  let hashValues := List.replicate HASH_ARRAY_LEN 0
  let hashValues := processBlocks pm.1 pm.2 hashValues
  generateDigest hashValues

/-! ## main, option 2: line-ending normalisation of the file content -/

/-- The two steps of `main` between reading `content` and hashing: copy every
character except carriage returns into `normalized`, then remove one trailing
newline if there is one. -/
def normalizeContent (content : List Nat) : List Nat :=
  let normalized := content.foldl
    (fun normalized c => if c = 0x0D then normalized else normalized ++ [c]) []
  if !normalized.isEmpty && normalized.getLast? == some 0x0A then
    normalized.dropLast
  else
    normalized

/-! ## Reading the framed blocks back as a byte stream -/

/-- The four bytes of a 32-bit word, most significant first. -/
def wordBytes (w : Nat) : List Nat :=
  [w / 2^24 % 256, w / 2^16 % 256, w / 2^8 % 256, w % 256]

/-- The bytes of a list of blocks: blocks in order, the words of a block in
order, each word as four big-endian bytes. -/
def serialise (blocks : List (List Nat)) : List Nat :=
  blocks.flatMap (fun block => block.flatMap wordBytes)

/-- The eight bytes of the 64-bit big-endian encoding of `n`. -/
def be64 (n : Nat) : List Nat :=
  [n / 2^56 % 256, n / 2^48 % 256, n / 2^40 % 256, n / 2^32 % 256,
   n / 2^24 % 256, n / 2^16 % 256, n / 2^8 % 256, n % 256]

/-- The `k` low hexadecimal digits of `n`, most significant first. -/
def hexFixed : Nat → Nat → List Char
  | 0, _ => []
  | k + 1, n => hexFixed k (n / 16) ++ [Nat.digitChar (n % 16)]

/-- The sixteen characters a digest may contain. -/
def hexChars : List Char := "0123456789abcdef".toList

/-- Byte `index` of the stream that the three-way branch of `prepareMessage`
reads: the message, then 0x80, then zeros. -/
def paddedByte (input : List Nat) (messageLength index : Nat) : Nat :=
  if index < messageLength then input.getD index 0
  else if index = messageLength then 0x80
  else 0x00

/-- The value of a lowercase hexadecimal digit (0 for every other character). -/
def hexValue (c : Char) : Nat :=
  if '0' ≤ c ∧ c ≤ '9' then c.toNat - '0'.toNat
  else if 'a' ≤ c ∧ c ≤ 'f' then c.toNat - 'a'.toNat + 10
  else 0

/-- The base-16 number that a sequence of digits denotes, most significant
digit first. -/
def parseHex (cs : List Char) : Nat := cs.foldl (fun acc c => acc * 16 + hexValue c) 0

/-- Group `i` of a digest: its 8 characters from position `8 * i` on. -/
def digestGroup (digest : String) (i : Nat) : List Char := (digest.data.drop (8 * i)).take 8

/-- A content of `workingVars`: eight 32-bit words. -/
def WordState (workingVars : List Nat) : Prop :=
  workingVars.length = 8 ∧ ∀ x ∈ workingVars, x < 2^32

instance (workingVars : List Nat) : Decidable (WordState workingVars) := by
  unfold WordState
  infer_instance

/-- The registers before a round of the main compression loop, from the
registers after it, the round constant `k` and the schedule word `w` of the
round: six registers are read back from their shifted places, `temp2` is
recomputed from them, and `temp1`, `workingVars[3]` and `workingVars[7]`
follow by subtraction mod 2^32. -/
def roundInverse (k w : Nat) (workingVars : List Nat) : List Nat :=
  let a := workingVars.getD 1 0
  let b := workingVars.getD 2 0
  let c := workingVars.getD 3 0
  let e := workingVars.getD 5 0
  let f := workingVars.getD 6 0
  let g := workingVars.getD 7 0
  let temp2 := (SIGMA0 a + MAJORITY a b c) % 2^32
  let temp1 := (workingVars.getD 0 0 + (2^32 - temp2)) % 2^32
  let d := (workingVars.getD 4 0 + (2^32 - temp1)) % 2^32
  let h := (temp1 + (2^32 - (SIGMA1 e + CHOOSE e f g + k + w) % 2^32)) % 2^32
  [a, b, c, d, e, f, g, h]

/-- Word `j` of the last block of a `prepareMessage` result. -/
def lastBlockWord (pm : List (List Nat) × Nat) (j : Nat) : Nat :=
  (pm.1.getD (pm.2 - 1) []).getD j 0

/-- The 56-byte ASCII message `abcdbcdecdefdefgefghfghighijhijkijkljklmklmnlmnomnopnopq`. -/
def twoBlockMessage : List Nat :=
  [0x61, 0x62, 0x63, 0x64, 0x62, 0x63, 0x64, 0x65, 0x63, 0x64, 0x65, 0x66, 0x64, 0x65, 0x66, 0x67,
   0x65, 0x66, 0x67, 0x68, 0x66, 0x67, 0x68, 0x69, 0x67, 0x68, 0x69, 0x6a, 0x68, 0x69, 0x6a, 0x6b,
   0x69, 0x6a, 0x6b, 0x6c, 0x6a, 0x6b, 0x6c, 0x6d, 0x6b, 0x6c, 0x6d, 0x6e, 0x6c, 0x6d, 0x6e, 0x6f,
   0x6d, 0x6e, 0x6f, 0x70, 0x6e, 0x6f, 0x70, 0x71]

end SecureHash256

/-! ## SHA-256 as the specification states it

The four stages of the specification (frame, schedule, compress, format) and
their composition `digest`, written from the specification text and
FIPS 180-4, independently of the C++ code: the padding is a byte stream that
is then cut into words and blocks, the working registers are updated
simultaneously, and each word is formatted as exactly eight digits. -/

namespace Spec

/-- The initial hash value `H(0)` of SHA-256. -/
def H0 : List Nat :=
  [0x6a09e667, 0xbb67ae85, 0x3c6ef372, 0xa54ff53a,
   0x510e527f, 0x9b05688c, 0x1f83d9ab, 0x5be0cd19]

/-- The round constants `K[0..63]` of SHA-256. -/
def K : List Nat :=
  [0x428a2f98, 0x71374491, 0xb5c0fbcf, 0xe9b5dba5, 0x3956c25b, 0x59f111f1, 0x923f82a4, 0xab1c5ed5] ++
  [0xd807aa98, 0x12835b01, 0x243185be, 0x550c7dc3, 0x72be5d74, 0x80deb1fe, 0x9bdc06a7, 0xc19bf174] ++
  [0xe49b69c1, 0xefbe4786, 0x0fc19dc6, 0x240ca1cc, 0x2de92c6f, 0x4a7484aa, 0x5cb0a9dc, 0x76f988da] ++
  [0x983e5152, 0xa831c66d, 0xb00327c8, 0xbf597fc7, 0xc6e00bf3, 0xd5a79147, 0x06ca6351, 0x14292967] ++
  [0x27b70a85, 0x2e1b2138, 0x4d2c6dfc, 0x53380d13, 0x650a7354, 0x766a0abb, 0x81c2c92e, 0x92722c85] ++
  [0xa2bfe8a1, 0xa81a664b, 0xc24b8b70, 0xc76c51a3, 0xd192e819, 0xd6990624, 0xf40e3585, 0x106aa070] ++
  [0x19a4c116, 0x1e376c08, 0x2748774c, 0x34b0bcb5, 0x391c0cb3, 0x4ed8aa4a, 0x5b9cca4f, 0x682e6ff3] ++
  [0x748f82ee, 0x78a5636f, 0x84c87814, 0x8cc70208, 0x90befffa, 0xa4506ceb, 0xbef9a3f7, 0xc67178f2]

/-- The first 64 prime numbers. -/
def firstPrimes : List Nat :=
  [2, 3, 5, 7, 11, 13, 17, 19, 23, 29, 31, 37, 41, 43, 47, 53, 59, 61, 67, 71, 73, 79, 83, 89, 97,
   101, 103, 107, 109, 113, 127, 131, 137, 139, 149, 151, 157, 163, 167, 173, 179, 181, 191, 193,
   197, 199, 211, 223, 227, 229, 233, 239, 241, 251, 257, 263, 269, 271, 277, 281, 283, 293, 307,
   311]

/-- `k` is the first 32 bits of the fractional part of the `r`-th root of `p`:
`k < 2^32` and `i + k / 2^32 ≤ p^(1/r) < i + (k + 1) / 2^32` for an integer
`i`. -/
def isRootFraction (r p k : Nat) : Bool :=
  decide (k < 2^32) && (List.range p).any (fun i =>
    decide ((i * 2^32 + k) ^ r ≤ p * 2^(32 * r)) &&
    decide (p * 2^(32 * r) < (i * 2^32 + k + 1) ^ r))

/-- 32-bit right rotation. -/
def rotr (x n : Nat) : Nat := (x >>> n) ||| ((x <<< (32 - n)) % 2^32)

/-- `Ch(x,y,z) = (x & y) xor (~x & z)`. -/
def Ch (x y z : Nat) : Nat := (x &&& y) ^^^ ((2^32 - 1 - x) &&& z)

/-- `Maj(x,y,z) = (x & y) xor (x & z) xor (y & z)`. -/
def Maj (x y z : Nat) : Nat := (x &&& y) ^^^ (x &&& z) ^^^ (y &&& z)

def bigSigma0 (x : Nat) : Nat := rotr x 2 ^^^ rotr x 13 ^^^ rotr x 22
def bigSigma1 (x : Nat) : Nat := rotr x 6 ^^^ rotr x 11 ^^^ rotr x 25
def smallSigma0 (x : Nat) : Nat := rotr x 7 ^^^ rotr x 18 ^^^ (x >>> 3)
def smallSigma1 (x : Nat) : Nat := rotr x 17 ^^^ rotr x 19 ^^^ (x >>> 10)

/-- The number of zero bits appended after the single one bit: the least
`k` with `bitLen + 1 + k ≡ 448 (mod 512)`. -/
def zeroBits (bitLen : Nat) : Nat := (448 + 512 - (bitLen + 1) % 512) % 512

/-- The padded byte stream: the input, the byte 0x80 (the one bit and seven
zero bits), the remaining zero bits as whole bytes, and the 64-bit big-endian
encoding of the bit length. -/
def pad (bytes : List Nat) : List Nat :=
  let bitLen := 8 * bytes.length
  bytes ++ [0x80] ++ List.replicate (zeroBits bitLen / 8) 0x00 ++ SecureHash256.be64 bitLen

/-- Consecutive pieces of `n` elements. -/
def chunks {α : Type} (n : Nat) (l : List α) : List (List α) :=
  (List.range (l.length / n)).map (fun i => (l.drop (i * n)).take n)

/-- The big-endian value of a sequence of bytes. -/
def beWord (bs : List Nat) : Nat := bs.foldl (fun acc b => acc * 256 + b) 0

/-- `frame`: pad, then partition into 4-byte big-endian words, 16 words per
block. -/
def frame (bytes : List Nat) : List (List Nat) :=
  chunks 16 ((chunks 4 (pad bytes)).map beWord)

/-- The derived schedule word `j` (for `16 ≤ j`), from the words before it. -/
def scheduleWord (W : List Nat) (j : Nat) : Nat :=
  (W.getD (j - 16) 0 + smallSigma0 (W.getD (j - 15) 0) +
    W.getD (j - 7) 0 + smallSigma1 (W.getD (j - 2) 0)) % 2^32

/-- The block followed by its first `n` derived words. -/
def schedulePrefix (block : List Nat) (n : Nat) : List Nat :=
  ((List.range n).map (· + 16)).foldl (fun W j => W ++ [scheduleWord W j]) block

/-- `schedule`: the 16 words of the block followed by the 48 derived words. -/
def schedule (block : List Nat) : List Nat :=
  ((List.range 48).map (· + 16)).foldl (fun W j => W ++ [scheduleWord W j]) block

/-- The eight working registers. -/
structure Registers where
  a : Nat
  b : Nat
  c : Nat
  d : Nat
  e : Nat
  f : Nat
  g : Nat
  h : Nat
deriving DecidableEq

def Registers.toList (r : Registers) : List Nat := [r.a, r.b, r.c, r.d, r.e, r.f, r.g, r.h]

/-- One round: `T1`, `T2` and the simultaneous update of the registers. -/
def round (r : Registers) (Kj Wj : Nat) : Registers :=
  let T1 := (r.h + bigSigma1 r.e + Ch r.e r.f r.g + Kj + Wj) % 2^32
  let T2 := (bigSigma0 r.a + Maj r.a r.b r.c) % 2^32
  { a := (T1 + T2) % 2^32, b := r.a, c := r.b, d := r.c,
    e := (r.d + T1) % 2^32, f := r.e, g := r.f, h := r.g }

/-- The registers after the 64 rounds that start from `r`. -/
def rounds (W : List Nat) (r : Registers) : Registers :=
  (List.range 64).foldl (fun r j => round r (K.getD j 0) (W.getD j 0)) r

/-- `compress`: 64 rounds from the current state, then the element-wise sum
with the state. -/
def compress (state : List Nat) (W : List Nat) : List Nat :=
  let r := rounds W
    { a := state.getD 0 0, b := state.getD 1 0, c := state.getD 2 0, d := state.getD 3 0,
      e := state.getD 4 0, f := state.getD 5 0, g := state.getD 6 0, h := state.getD 7 0 }
  [(state.getD 0 0 + r.a) % 2^32, (state.getD 1 0 + r.b) % 2^32,
   (state.getD 2 0 + r.c) % 2^32, (state.getD 3 0 + r.d) % 2^32,
   (state.getD 4 0 + r.e) % 2^32, (state.getD 5 0 + r.f) % 2^32,
   (state.getD 6 0 + r.g) % 2^32, (state.getD 7 0 + r.h) % 2^32]

/-- `format`: each word as 8 lowercase hexadecimal digits, in word order. -/
def format (state : List Nat) : String :=
  String.mk ((List.range 8).flatMap (fun i => SecureHash256.hexFixed 8 (state.getD i 0)))

/-- `digest`: frame, fold `compress ∘ schedule` over the blocks from the
initial state, format. -/
def digest (bytes : List Nat) : String :=
  format ((frame bytes).foldl (fun state block => compress state (schedule block)) H0)

end Spec

/-! # Theorems -/

namespace SecureHash256

/-! ## The two tables

The tables of the source are the tables of the specification, and those are
what FIPS 180-4 says they are: the first 32 bits of the fractional parts of
the cube roots (round constants) and of the square roots (initial hash value)
of the first primes. -/

theorem roundConstants_eq : roundConstants = Spec.K := rfl

theorem initialStates_eq : initialStates = Spec.H0 := rfl

theorem firstPrimes_prime : ∀ p ∈ Spec.firstPrimes, Nat.Prime p := by
  simp only [Spec.firstPrimes, List.forall_mem_cons, List.not_mem_nil, false_implies,
    implies_true, and_true]
  norm_num

set_option maxRecDepth 100000 in
theorem small_composite :
    ∀ n < 312, n ∈ Spec.firstPrimes ∨ n < 2 ∨
      ∃ d ∈ [2, 3, 5, 7, 11, 13, 17], d < n ∧ n % d = 0 := by
  decide

theorem firstPrimes_complete (n : Nat) (hn : n < 312) (hp : Nat.Prime n) :
    n ∈ Spec.firstPrimes := by
  rcases small_composite n hn with h | h | ⟨d, hd, hlt, hmod⟩
  · exact h
  · exact absurd hp.two_le (by omega)
  · have hdvd : d ∣ n := Nat.dvd_of_mod_eq_zero hmod
    have h2 : 2 ≤ d := by
      simp only [List.mem_cons, List.mem_singleton, List.not_mem_nil, or_false] at hd
      omega
    rcases (Nat.dvd_prime hp).1 hdvd with h1 | h1 <;> omega

set_option maxRecDepth 100000 in
theorem K_cube_roots :
    Spec.K.length = 64 ∧ Spec.firstPrimes.length = 64 ∧
    (List.zipWith (Spec.isRootFraction 3) Spec.firstPrimes Spec.K).all id = true := by
  decide

set_option maxRecDepth 100000 in
theorem H0_square_roots :
    Spec.H0.length = 8 ∧
    (List.zipWith (Spec.isRootFraction 2) Spec.firstPrimes Spec.H0).all id = true := by
  decide

/-! ## Sanity of the specification-side definitions -/

theorem zeroBits_least (n : Nat) :
    (n + 1 + Spec.zeroBits n) % 512 = 448 ∧
    ∀ k, (n + 1 + k) % 512 = 448 → Spec.zeroBits n ≤ k := by
  unfold Spec.zeroBits
  constructor
  · omega
  · intro k hk
    omega

theorem pad_length (bytes : List Nat) : (Spec.pad bytes).length % 64 = 0 := by
  simp only [Spec.pad, Spec.zeroBits, be64, List.length_append, List.length_replicate,
    List.length_cons, List.length_nil]
  omega

set_option maxRecDepth 100000 in
theorem digest_empty :
    Spec.digest [] = "e3b0c44298fc1c149afbf4c8996fb92427ae41e4649b934ca495991b7852b855" := by
  decide

set_option maxRecDepth 100000 in
theorem digest_abc :
    Spec.digest [0x61, 0x62, 0x63] =
      "ba7816bf8f01cfea414140de5dae2223b00361a396177a9cb410ff61f20015ad" := by
  decide

set_option maxRecDepth 100000 in
theorem digest_two_blocks :
    Spec.digest twoBlockMessage =
      "248d6a61d20638b8e5c026930c3e6039a33ce45964ff2167f6ecedd419db06c1" := by
  decide

/-! ## The block count -/

theorem prepareMessage_snd (input : List Nat) :
    (prepareMessage input).2 =
      blockCountOf (bitLengthOf (strlen input)) (paddingBitsOf (bitLengthOf (strlen input))) :=
  rfl

theorem blockCountOf_eq (L : Nat) (h : 8 * L + 576 < 2^64) :
    blockCountOf (bitLengthOf L) (paddingBitsOf (bitLengthOf L)) =
      L / 64 + (if L % 64 ≤ 55 then 1 else 2) := by
  unfold blockCountOf paddingBitsOf bitLengthOf BLOCK_SIZE BYTE_LENGTH
  split <;> omega

/-- C5: when the `size_t` sums do not overflow, the block count that
`prepareMessage` stores is `ceil((8*L + 1 + 64) / 512)` for a message of `L`
bytes, that is `L/64 + 1` when `L % 64 ≤ 55` and `L/64 + 2` when
`L % 64 ≥ 56`; so 0 and 55 bytes give one block and 56 bytes give two. -/
theorem prepareMessage_blockCount (input : List Nat)
    (h : 8 * strlen input + 576 < 2^64) :
    (prepareMessage input).2 = (8 * strlen input + 1 + 64 + 511) / 512 ∧
    (strlen input % 64 ≤ 55 → (prepareMessage input).2 = strlen input / 64 + 1) ∧
    (56 ≤ strlen input % 64 → (prepareMessage input).2 = strlen input / 64 + 2) ∧
    (strlen input = 0 → (prepareMessage input).2 = 1) ∧
    (strlen input = 55 → (prepareMessage input).2 = 1) ∧
    (strlen input = 56 → (prepareMessage input).2 = 2) := by
  rw [prepareMessage_snd, blockCountOf_eq _ h]
  refine ⟨?_, ?_, ?_, ?_, ?_, ?_⟩ <;> split <;> omega

theorem prepareMessage_blockCount_witness :
    8 * strlen [0x61, 0x62, 0x63] + 576 < 2^64 ∧
    (prepareMessage [0x61, 0x62, 0x63]).2 = (8 * strlen [0x61, 0x62, 0x63] + 1 + 64 + 511) / 512 :=
  ⟨by decide, (prepareMessage_blockCount [0x61, 0x62, 0x63] (by decide)).1⟩

/-! ## Line-ending normalisation -/

theorem foldl_skip_cr (content acc : List Nat) :
    content.foldl (fun normalized c => if c = 0x0D then normalized else normalized ++ [c]) acc =
      acc ++ content.filter (fun c => decide (c ≠ 0x0D)) := by
  induction content generalizing acc with
  | nil => simp
  | cons c cs ih =>
    by_cases hc : c = 0x0D
    · simp [List.foldl_cons, hc, ih]
    · simp [List.foldl_cons, hc, ih]

theorem filter_no_cr (c : List Nat) (h : 0x0D ∉ c) :
    c.filter (fun x => decide (x ≠ 0x0D)) = c := by
  rw [List.filter_eq_self]
  intro x hx
  have : x ≠ 0x0D := fun e => h (e ▸ hx)
  simpa using this

theorem normalizeContent_append_newline (c : List Nat) (h : 0x0D ∉ c) :
    normalizeContent (c ++ [0x0A]) = c := by
  have h2 : (0x0D : Nat) ∉ c ++ [0x0A] := by simp [h]
  unfold normalizeContent
  rw [foldl_skip_cr, filter_no_cr _ h2]
  simp

/-- C10: for a content `c` without carriage returns, the preprocessing of
`main` maps `c` followed by one newline to `c`, so the hash of the file
content equals the hash of `c`; of two trailing newlines only one is
removed. -/
theorem normalizeContent_trailing_newline (c : List Nat) (h : 0x0D ∉ c) :
    normalizeContent (c ++ [0x0A]) = c ∧
    calculateHash (normalizeContent (c ++ [0x0A])) = calculateHash c ∧
    normalizeContent (c ++ [0x0A, 0x0A]) = c ++ [0x0A] := by
  refine ⟨normalizeContent_append_newline c h, ?_, ?_⟩
  · rw [normalizeContent_append_newline c h]
  · have h2 : (0x0D : Nat) ∉ c ++ [0x0A] := by simp [h]
    have := normalizeContent_append_newline (c ++ [0x0A]) h2
    simpa using this

theorem normalizeContent_trailing_newline_witness :
    (0x0D ∉ [0x68, 0x69]) ∧ normalizeContent ([0x68, 0x69] ++ [0x0A]) = [0x68, 0x69] :=
  ⟨by decide, (normalizeContent_trailing_newline [0x68, 0x69] (by decide)).1⟩

/-! ## Truncation at the first zero byte -/

theorem strlen_takeWhile (b : List Nat) :
    strlen (b.takeWhile (fun c => c != 0)) = strlen b := by
  induction b with
  | nil => rfl
  | cons c cs ih =>
    by_cases hc : c = 0
    · simp [List.takeWhile_cons, hc, strlen]
    · simp [List.takeWhile_cons, hc, strlen, ih]

theorem getD_takeWhile (b : List Nat) (idx : Nat) (h : idx < strlen b) :
    (b.takeWhile (fun c => c != 0)).getD idx 0 = b.getD idx 0 := by
  induction b generalizing idx with
  | nil => rfl
  | cons c cs ih =>
    by_cases hc : c = 0
    · simp [strlen, hc] at h
    · cases idx with
      | zero => simp [List.takeWhile_cons, hc]
      | succ n =>
        have hn : n < strlen cs := by simpa [strlen, hc] using h
        simpa [List.takeWhile_cons, hc] using ih n hn

theorem assembleWord_eq (input : List Nat) (L i j : Nat) :
    assembleWord input L i j =
      [0, 1, 2, 3].foldl (fun w k =>
        (w <<< 8 ||| paddedByte input L (i * 64 + j * 4 + k)) % 2^32) 0 := by
  have hr : List.range WORD_SIZE = [0, 1, 2, 3] := rfl
  unfold assembleWord
  rw [hr]
  congr 1
  funext w k
  unfold paddedByte
  dsimp only
  split_ifs <;> rfl

theorem paddedByte_congr (a b : List Nat) (L idx : Nat)
    (h : ∀ idx, idx < L → a.getD idx 0 = b.getD idx 0) :
    paddedByte a L idx = paddedByte b L idx := by
  unfold paddedByte
  split_ifs with h1
  · exact h idx h1
  · rfl
  · rfl

theorem assembleWord_congr (a b : List Nat) (L i j : Nat)
    (h : ∀ idx, idx < L → a.getD idx 0 = b.getD idx 0) :
    assembleWord a L i j = assembleWord b L i j := by
  rw [assembleWord_eq, assembleWord_eq]
  congr 1
  funext w k
  rw [paddedByte_congr a b L _ h]

theorem prepareMessage_congr (a b : List Nat) (hl : strlen a = strlen b)
    (h : ∀ idx, idx < strlen b → a.getD idx 0 = b.getD idx 0) :
    prepareMessage a = prepareMessage b := by
  have hw : ∀ i j, assembleWord a (strlen b) i j = assembleWord b (strlen b) i j :=
    fun i j => assembleWord_congr a b _ i j h
  unfold prepareMessage
  simp only [hl, hw]

theorem prepareMessage_takeWhile (b : List Nat) :
    prepareMessage (b.takeWhile (fun c => c != 0)) = prepareMessage b :=
  prepareMessage_congr _ _ (strlen_takeWhile b) (fun idx h => getD_takeWhile b idx h)

theorem calculateHash_takeWhile (b : List Nat) :
    calculateHash (b.takeWhile (fun c => c != 0)) = calculateHash b := by
  unfold calculateHash
  rw [prepareMessage_takeWhile]

/-- C8: `calculateHash` of a buffer equals `calculateHash` of the bytes in
front of its first zero byte, and two buffers with the same bytes in front of
their first zero byte have the same digest: what follows an embedded zero byte
has no influence. -/
theorem calculateHash_ignores_after_zero (b b' : List Nat)
    (h : b.takeWhile (fun c => c != 0) = b'.takeWhile (fun c => c != 0)) :
    calculateHash b = calculateHash (b.takeWhile (fun c => c != 0)) ∧
    calculateHash b = calculateHash b' := by
  refine ⟨(calculateHash_takeWhile b).symm, ?_⟩
  rw [← calculateHash_takeWhile b, ← calculateHash_takeWhile b', h]

theorem calculateHash_ignores_after_zero_witness :
    ([0x61, 0x00, 0x62].takeWhile (fun c => c != 0) =
      [0x61, 0x00, 0x63, 0x64].takeWhile (fun c => c != 0)) ∧
    calculateHash [0x61, 0x00, 0x62] = calculateHash [0x61] ∧
    calculateHash [0x61, 0x00, 0x62] = calculateHash [0x61, 0x00, 0x63, 0x64] :=
  ⟨by decide, calculateHash_ignores_after_zero [0x61, 0x00, 0x62] [0x61, 0x00, 0x63, 0x64]
    (by decide)⟩

/-! ## The digest formatter -/

theorem toDigitsCore_append (fuel n : Nat) (ds : List Char) :
    Nat.toDigitsCore 16 fuel n ds = Nat.toDigitsCore 16 fuel n [] ++ ds := by
  induction fuel generalizing n ds with
  | zero => simp [Nat.toDigitsCore]
  | succ f ih =>
    simp only [Nat.toDigitsCore]
    split
    · simp
    · rw [ih (n / 16) (Nat.digitChar (n % 16) :: ds), ih (n / 16) [Nat.digitChar (n % 16)]]
      simp

theorem hexFixed_zero (k : Nat) : hexFixed k 0 = List.replicate k '0' := by
  induction k with
  | zero => rfl
  | succ k ih =>
    rw [hexFixed, Nat.zero_div, ih, List.replicate_succ']
    rfl

theorem hexFixed_length (k n : Nat) : (hexFixed k n).length = k := by
  induction k generalizing n with
  | zero => rfl
  | succ k ih => simp [hexFixed, ih]

theorem digitChar_mem_hexChars (d : Nat) (h : d < 16) : Nat.digitChar d ∈ hexChars := by
  revert d
  decide

theorem hexFixed_mem (k n : Nat) : ∀ c ∈ hexFixed k n, c ∈ hexChars := by
  induction k generalizing n with
  | zero => simp [hexFixed]
  | succ k ih =>
    intro c hc
    simp only [hexFixed, List.mem_append, List.mem_singleton] at hc
    rcases hc with hc | hc
    · exact ih _ c hc
    · rw [hc]
      exact digitChar_mem_hexChars _ (Nat.mod_lt _ (by decide))

theorem pad_toDigitsCore (k fuel n : Nat) (hn : n < 16 ^ (k + 1)) (hf : n < fuel) :
    (Nat.toDigitsCore 16 fuel n []).length ≤ k + 1 ∧
    List.replicate (k + 1 - (Nat.toDigitsCore 16 fuel n []).length) '0' ++
      Nat.toDigitsCore 16 fuel n [] = hexFixed (k + 1) n := by
  induction k generalizing fuel n with
  | zero =>
    obtain ⟨f, rfl⟩ : ∃ f, fuel = f + 1 := ⟨fuel - 1, by omega⟩
    have h0 : n / 16 = 0 := by omega
    simp [Nat.toDigitsCore, h0, hexFixed]
  | succ k ih =>
    obtain ⟨f, rfl⟩ : ∃ f, fuel = f + 1 := ⟨fuel - 1, by omega⟩
    by_cases h0 : n / 16 = 0
    · have : hexFixed (k + 1 + 1) n = List.replicate (k + 1) '0' ++ [Nat.digitChar (n % 16)] := by
        rw [hexFixed, h0, hexFixed_zero]
      simp [Nat.toDigitsCore, h0, this]
    · have hn' : n / 16 < 16 ^ (k + 1) := by
        rw [Nat.div_lt_iff_lt_mul (by decide)]
        rw [pow_succ] at hn
        exact hn
      have hf' : n / 16 < f := by omega
      obtain ⟨hl, he⟩ := ih f (n / 16) hn' hf'
      have hstep : Nat.toDigitsCore 16 (f + 1) n [] =
          Nat.toDigitsCore 16 f (n / 16) [] ++ [Nat.digitChar (n % 16)] := by
        rw [Nat.toDigitsCore]
        simp only [h0, if_false]
        exact toDigitsCore_append f (n / 16) _
      rw [hstep]
      constructor
      · simp
        omega
      · rw [hexFixed, ← he, List.length_append, List.length_singleton]
        have : k + 1 + 1 - ((Nat.toDigitsCore 16 f (n / 16) []).length + 1) =
            k + 1 - (Nat.toDigitsCore 16 f (n / 16) []).length := by omega
        rw [this, List.append_assoc]

theorem streamHex_eq (v : Nat) (h : v < 2^32) : streamHex v = hexFixed 8 v := by
  unfold streamHex Nat.toDigits
  exact (pad_toDigitsCore 7 (v + 1) v (by omega) (by omega)).2

/-! ## processBlocks against the specification's schedule and compress -/

theorem roundStep_toList (schedule : List Nat) (r : Spec.Registers) (j : Nat) :
    roundStep schedule r.toList j =
      (Spec.round r (Spec.K.getD j 0) (schedule.getD j 0)).toList :=
  rfl

theorem foldl_roundStep (schedule : List Nat) (js : List Nat) (r : Spec.Registers) :
    js.foldl (roundStep schedule) r.toList =
      (js.foldl (fun r j => Spec.round r (Spec.K.getD j 0) (schedule.getD j 0)) r).toList := by
  induction js generalizing r with
  | nil => rfl
  | cons j js ih => rw [List.foldl_cons, List.foldl_cons, roundStep_toList, ih]

theorem length_eq_eight {l : List Nat} (h : l.length = 8) :
    ∃ a b c d e f g k, l = [a, b, c, d, e, f, g, k] := by
  match l, h with
  | [a, b, c, d, e, f, g, k], _ => exact ⟨a, b, c, d, e, f, g, k, rfl⟩

theorem hashValues_update (hv : List Nat) (r : Spec.Registers) (h : hv.length = 8) :
    (List.range HASH_ARRAY_LEN).foldl
      (fun hv j => hv.set j ((hv.getD j 0 + r.toList.getD j 0) % 2^32)) hv =
    [(hv.getD 0 0 + r.a) % 2^32, (hv.getD 1 0 + r.b) % 2^32,
     (hv.getD 2 0 + r.c) % 2^32, (hv.getD 3 0 + r.d) % 2^32,
     (hv.getD 4 0 + r.e) % 2^32, (hv.getD 5 0 + r.f) % 2^32,
     (hv.getD 6 0 + r.g) % 2^32, (hv.getD 7 0 + r.h) % 2^32] := by
  obtain ⟨a, b, c, d, e, f, g, k, rfl⟩ := length_eq_eight h
  rfl
theorem set_length_append (l tl : List Nat) (x v : Nat) :
    (l ++ x :: tl).set l.length v = l ++ v :: tl := by
  rw [List.set_append_right _ _ (Nat.le_refl _)]
  simp

theorem extendStep_append (W tl : List Nat) (x j : Nat) (hW : W.length = j) (hj : 16 ≤ j) :
    extendStep (W ++ x :: tl) j = (W ++ [Spec.scheduleWord W j]) ++ tl := by
  unfold extendStep Spec.scheduleWord
  rw [List.getD_append _ _ _ _ (by omega), List.getD_append _ _ _ _ (by omega),
    List.getD_append _ _ _ _ (by omega), List.getD_append _ _ _ _ (by omega)]
  subst hW
  rw [set_length_append]
  simp
  rfl

theorem foldl_extendStep (blk stale : List Nat) (hb : blk.length = 16)
    (hs : stale.length = 64) (n : Nat) (hn : n ≤ 48) :
    (((List.range n).map (· + 16)).foldl (fun W j => W ++ [Spec.scheduleWord W j]) blk).length
      = 16 + n ∧
    ((List.range n).map (· + 16)).foldl extendStep (blk ++ stale.drop 16) =
      ((List.range n).map (· + 16)).foldl (fun W j => W ++ [Spec.scheduleWord W j]) blk ++
        stale.drop (16 + n) := by
  induction n with
  | zero => simp [hb]
  | succ n ih =>
    obtain ⟨hl, he⟩ := ih (by omega)
    rw [List.range_succ, List.map_append, List.foldl_append, List.foldl_append, he]
    simp only [List.map_cons, List.map_nil, List.foldl_cons, List.foldl_nil]
    constructor
    · simp [hl]
      omega
    · have hd : stale.drop (16 + n) = stale[16 + n] :: stale.drop (16 + n + 1) :=
        List.drop_eq_getElem_cons (by omega)
      rw [hd, extendStep_append _ _ _ _ (by omega) (by omega)]
      rfl

theorem schedule_extension (blk stale : List Nat) (hb : blk.length = 16)
    (hs : stale.length = 64) :
    ((List.range (SCHEDULE_ARRAY_LEN - 16)).map (· + 16)).foldl extendStep
      (blk.take BLOCK_SEQUENCE_LEN ++ stale.drop BLOCK_SEQUENCE_LEN) = Spec.schedule blk := by
  have h := (foldl_extendStep blk stale hb hs 48 (Nat.le_refl _)).2
  have ht : blk.take BLOCK_SEQUENCE_LEN = blk := List.take_of_length_le (by simp [hb, BLOCK_SEQUENCE_LEN])
  have hd : stale.drop (16 + 48) = [] := List.drop_of_length_le (by omega)
  rw [hd, List.append_nil] at h
  rw [ht]
  exact h

theorem schedule_length (blk : List Nat) (hb : blk.length = 16) :
    (Spec.schedule blk).length = 64 :=
  (foldl_extendStep blk (List.replicate 64 0) hb (by simp) 48 (Nat.le_refl _)).1
theorem compress_length (st W : List Nat) : (Spec.compress st W).length = 8 := rfl

theorem compress_lt (st W : List Nat) : ∀ x ∈ Spec.compress st W, x < 2^32 := by
  intro x hx
  simp only [Spec.compress, List.mem_cons, List.mem_singleton, List.not_mem_nil, or_false] at hx
  rcases hx with h | h | h | h | h | h | h | h <;> rw [h] <;> exact Nat.mod_lt _ (by decide)

theorem blockStep_eq (blocks : List (List Nat)) (s : Buffers) (i : Nat)
    (hb : (blocks.getD i []).length = 16) (hs : s.schedule.length = 64)
    (hw : s.workingVars.length = 8) (hh : s.hashValues.length = 8) :
    (blockStep blocks s i).hashValues =
      Spec.compress s.hashValues (Spec.schedule (blocks.getD i [])) ∧
    (blockStep blocks s i).schedule.length = 64 ∧
    (blockStep blocks s i).workingVars.length = 8 := by
  obtain ⟨a, b, c, d, e, f, g, k, hv⟩ := length_eq_eight hh
  have hwv : s.hashValues.take HASH_ARRAY_LEN ++ s.workingVars.drop HASH_ARRAY_LEN =
      Spec.Registers.toList ⟨a, b, c, d, e, f, g, k⟩ := by
    rw [List.drop_of_length_le (by simp [hw, HASH_ARRAY_LEN]), List.append_nil,
      List.take_of_length_le (by simp [hh, HASH_ARRAY_LEN]), hv]
    rfl
  unfold blockStep
  simp only []
  rw [schedule_extension _ _ hb hs, hwv, foldl_roundStep, hashValues_update _ _ hh]
  refine ⟨?_, schedule_length _ hb, rfl⟩
  rw [hv]
  rfl

theorem foldl_blockStep (blocks : List (List Nat)) (s : Buffers)
    (hb : ∀ blk ∈ blocks, blk.length = 16) (hs : s.schedule.length = 64)
    (hw : s.workingVars.length = 8) (hh : s.hashValues.length = 8) (n : Nat)
    (hn : n ≤ blocks.length) :
    ((List.range n).foldl (blockStep blocks) s).hashValues =
      (blocks.take n).foldl (fun st blk => Spec.compress st (Spec.schedule blk)) s.hashValues ∧
    ((List.range n).foldl (blockStep blocks) s).schedule.length = 64 ∧
    ((List.range n).foldl (blockStep blocks) s).workingVars.length = 8 ∧
    ((List.range n).foldl (blockStep blocks) s).hashValues.length = 8 := by
  induction n with
  | zero => exact ⟨rfl, hs, hw, hh⟩
  | succ n ih =>
    obtain ⟨h1, h2, h3, h4⟩ := ih (by omega)
    have hlt : n < blocks.length := by omega
    have hg : blocks.getD n [] = blocks[n] := List.getD_eq_getElem _ _ hlt
    have hbn : (blocks.getD n []).length = 16 := by
      rw [hg]
      exact hb _ (List.getElem_mem _)
    obtain ⟨e1, e2, e3⟩ := blockStep_eq blocks _ n hbn h2 h3 h4
    rw [List.range_succ, List.foldl_append, List.foldl_cons, List.foldl_nil]
    refine ⟨?_, e2, e3, ?_⟩
    · rw [e1, h1, List.take_succ, List.foldl_append, List.getElem?_eq_getElem hlt, hg]
      rfl
    · rw [e1]
      rfl

theorem Spec_H0_eq : Spec.H0 = initialStates := rfl

theorem processBlocksFrom_eq (workingVars schedule : List Nat) (blocks : List (List Nat))
    (hv : List Nat) (hb : ∀ blk ∈ blocks, blk.length = 16)
    (hw : workingVars.length = 8) (hs : schedule.length = 64) (hh : hv.length = 8) :
    processBlocksFrom workingVars schedule blocks blocks.length hv =
      blocks.foldl (fun st blk => Spec.compress st (Spec.schedule blk)) Spec.H0 := by
  have h0 : initialStates.take HASH_ARRAY_LEN ++ hv.drop HASH_ARRAY_LEN = Spec.H0 := by
    rw [List.drop_of_length_le (by simp [hh, HASH_ARRAY_LEN])]
    rfl
  unfold processBlocksFrom
  simp only []
  rw [h0]
  have h := (foldl_blockStep blocks
    { workingVars := workingVars, schedule := schedule, hashValues := Spec.H0 }
    hb hs hw rfl blocks.length (Nat.le_refl _)).1
  rw [h, List.take_length]

theorem processBlocks_eq (blocks : List (List Nat)) (hv : List Nat)
    (hb : ∀ blk ∈ blocks, blk.length = 16) (hh : hv.length = 8) :
    processBlocks blocks blocks.length hv =
      blocks.foldl (fun st blk => Spec.compress st (Spec.schedule blk)) Spec.H0 :=
  processBlocksFrom_eq _ _ blocks hv hb (by simp [HASH_ARRAY_LEN])
    (by simp [SCHEDULE_ARRAY_LEN]) hh

theorem foldl_compress_words (blocks : List (List Nat)) (st : List Nat)
    (hl : st.length = 8) (hlt : ∀ x ∈ st, x < 2^32) :
    (blocks.foldl (fun st blk => Spec.compress st (Spec.schedule blk)) st).length = 8 ∧
    ∀ x ∈ blocks.foldl (fun st blk => Spec.compress st (Spec.schedule blk)) st, x < 2^32 := by
  induction blocks generalizing st with
  | nil => exact ⟨hl, hlt⟩
  | cons blk blocks ih =>
    rw [List.foldl_cons]
    exact ih _ (compress_length _ _) (compress_lt _ _)

theorem H0_lt : ∀ x ∈ Spec.H0, x < 2^32 := by decide

/-! ## The shape of the framed blocks -/

theorem prepareMessage_length (input : List Nat) :
    (prepareMessage input).1.length = (prepareMessage input).2 := by
  simp [prepareMessage]

theorem prepareMessage_block_length (input : List Nat) :
    ∀ blk ∈ (prepareMessage input).1, blk.length = 16 := by
  intro blk hblk
  have hraw : ∀ b ∈ (List.range (prepareMessage input).2).map (fun i =>
      (List.range BLOCK_SEQUENCE_LEN).map
        (fun j => assembleWord input (strlen input) i j)), b.length = 16 := by
    intro b hb
    obtain ⟨i, _, rfl⟩ := List.mem_map.1 hb
    simp [BLOCK_SEQUENCE_LEN]
  unfold prepareMessage at hblk
  simp only [] at hblk
  rcases List.mem_or_eq_of_mem_set hblk with h | h
  · exact hraw _ h
  · rw [h, List.length_set, List.length_set]
    have hpos : 0 < (prepareMessage input).2 := by
      have := List.length_pos_of_mem hblk
      simpa [prepareMessage_snd] using this
    rw [List.getD_eq_getElem _ _ (by simpa [prepareMessage_snd] using hpos)]
    exact hraw _ (List.getElem_mem _)

theorem calculateHash_eq (input : List Nat) :
    calculateHash input =
      generateDigest ((prepareMessage input).1.foldl
        (fun st blk => Spec.compress st (Spec.schedule blk)) Spec.H0) := by
  unfold calculateHash
  simp only []
  rw [← prepareMessage_length input,
    processBlocks_eq _ _ (prepareMessage_block_length input) (by simp [HASH_ARRAY_LEN])]

theorem generateDigest_eq (hv : List Nat) (h : ∀ x ∈ hv, x < 2^32) :
    generateDigest hv = Spec.format hv := by
  have hs : ∀ i, streamHex (hv.getD i 0) = hexFixed 8 (hv.getD i 0) := by
    intro i
    apply streamHex_eq
    by_cases hi : i < hv.length
    · rw [List.getD_eq_getElem _ _ hi]
      exact h _ (List.getElem_mem _)
    · rw [List.getD_eq_default _ _ (by omega)]
      decide
  unfold generateDigest Spec.format
  simp only [hs]
  have hr : List.range HASH_ARRAY_LEN = [0, 1, 2, 3, 4, 5, 6, 7] := rfl
  have hr' : List.range 8 = [0, 1, 2, 3, 4, 5, 6, 7] := rfl
  rw [hr, hr']
  simp [List.flatMap]

theorem format_length (hv : List Nat) : (Spec.format hv).length = 64 := by
  have hr' : List.range 8 = [0, 1, 2, 3, 4, 5, 6, 7] := rfl
  unfold Spec.format
  rw [hr']
  simp [List.flatMap, String.length, hexFixed_length]

theorem format_mem (hv : List Nat) : ∀ c ∈ (Spec.format hv).data, c ∈ hexChars := by
  intro c hc
  simp only [Spec.format, List.mem_flatMap] at hc
  obtain ⟨i, _, hi⟩ := hc
  exact hexFixed_mem _ _ c hi

/-- C4: for every input the string returned by `calculateHash` has exactly 64
characters, each of them one of `0`-`9`, `a`-`f`. -/
theorem calculateHash_length_and_alphabet (input : List Nat) :
    (calculateHash input).length = 64 ∧
    ∀ c ∈ (calculateHash input).data, c ∈ hexChars := by
  rw [calculateHash_eq,
    generateDigest_eq _ (foldl_compress_words _ Spec.H0 rfl H0_lt).2]
  exact ⟨format_length _, format_mem _⟩

/-! ## The framed blocks as a byte stream -/

theorem strlen_eq_length (m : List Nat) (h : ∀ x ∈ m, x ≠ 0) : strlen m = m.length := by
  induction m with
  | nil => rfl
  | cons c cs ih =>
    have hc : c ≠ 0 := h c (List.mem_cons_self _ _)
    have hcs : ∀ x ∈ cs, x ≠ 0 := fun x hx => h x (List.mem_cons_of_mem _ hx)
    simp [strlen, hc, ih hcs]

theorem paddedByte_lt (input : List Nat) (h : ∀ x ∈ input, x < 256) (L idx : Nat) :
    paddedByte input L idx < 256 := by
  unfold paddedByte
  split_ifs
  · by_cases hi : idx < input.length
    · rw [List.getD_eq_getElem _ _ hi]
      exact h _ (List.getElem_mem _)
    · rw [List.getD_eq_default _ _ (by omega)]
      decide
  · decide
  · decide

theorem shift_or_byte (w b : Nat) (hb : b < 256) : w <<< 8 ||| b = w * 256 + b := by
  have e : 2 ^ 8 * w + b = 2 ^ 8 * w ||| b := Nat.mul_add_lt_is_or (by simpa using hb) w
  rw [Nat.shiftLeft_eq, Nat.mul_comm w, ← e]

theorem assembleWord_value (input : List Nat) (h : ∀ x ∈ input, x < 256) (L i j : Nat) :
    assembleWord input L i j =
      paddedByte input L (i * 64 + j * 4 + 0) * 2^24 +
      paddedByte input L (i * 64 + j * 4 + 1) * 2^16 +
      paddedByte input L (i * 64 + j * 4 + 2) * 2^8 +
      paddedByte input L (i * 64 + j * 4 + 3) := by
  have h0 := paddedByte_lt input h L (i * 64 + j * 4 + 0)
  have h1 := paddedByte_lt input h L (i * 64 + j * 4 + 1)
  have h2 := paddedByte_lt input h L (i * 64 + j * 4 + 2)
  have h3 := paddedByte_lt input h L (i * 64 + j * 4 + 3)
  rw [assembleWord_eq]
  simp only [List.foldl_cons, List.foldl_nil]
  rw [shift_or_byte _ _ h0]
  generalize paddedByte input L (i * 64 + j * 4 + 0) = b0 at *
  rw [shift_or_byte _ _ h1]
  generalize paddedByte input L (i * 64 + j * 4 + 1) = b1 at *
  rw [shift_or_byte _ _ h2]
  generalize paddedByte input L (i * 64 + j * 4 + 2) = b2 at *
  rw [shift_or_byte _ _ h3]
  generalize paddedByte input L (i * 64 + j * 4 + 3) = b3 at *
  omega

theorem wordBytes_assembleWord (input : List Nat) (h : ∀ x ∈ input, x < 256) (L i j : Nat) :
    wordBytes (assembleWord input L i j) =
      (List.range 4).map (fun t => paddedByte input L ((i * 16 + j) * 4 + t)) := by
  have h0 := paddedByte_lt input h L (i * 64 + j * 4 + 0)
  have h1 := paddedByte_lt input h L (i * 64 + j * 4 + 1)
  have h2 := paddedByte_lt input h L (i * 64 + j * 4 + 2)
  have h3 := paddedByte_lt input h L (i * 64 + j * 4 + 3)
  have e : ∀ t, (i * 16 + j) * 4 + t = i * 64 + j * 4 + t := fun t => by ring
  have hr : List.range 4 = [0, 1, 2, 3] := rfl
  rw [assembleWord_value input h, hr]
  simp only [List.map_cons, List.map_nil, e]
  generalize paddedByte input L (i * 64 + j * 4 + 0) = b0 at *
  generalize paddedByte input L (i * 64 + j * 4 + 1) = b1 at *
  generalize paddedByte input L (i * 64 + j * 4 + 2) = b2 at *
  generalize paddedByte input L (i * 64 + j * 4 + 3) = b3 at *
  unfold wordBytes
  congr 1
  · omega
  congr 1
  · omega
  congr 1
  · omega
  congr 1
  omega

theorem assembleWord_lt (input : List Nat) (L i j : Nat) : assembleWord input L i j < 2^32 := by
  rw [assembleWord_eq]
  simp only [List.foldl_cons, List.foldl_nil]
  exact Nat.mod_lt _ (by decide)
theorem flatMap_range_block {α : Type} (g : Nat → α) (k n : Nat) :
    (List.range n).flatMap (fun i => (List.range k).map (fun t => g (i * k + t))) =
      (List.range (n * k)).map g := by
  induction n with
  | zero => simp
  | succ n ih =>
    rw [List.range_succ, List.flatMap_append, ih, Nat.succ_mul, List.range_add, List.map_append,
      List.map_map]
    simp [List.flatMap]

theorem serialise_eq (blocks : List (List Nat)) :
    serialise blocks = blocks.flatten.flatMap wordBytes := by
  induction blocks with
  | nil => rfl
  | cons b bs ih =>
    unfold serialise at ih ⊢
    rw [List.flatMap_cons, ih, List.flatten_cons, List.flatMap_append]

theorem assembleWord_shift (input : List Nat) (L i j : Nat) :
    assembleWord input L i j = assembleWord input L 0 (i * 16 + j) := by
  rw [assembleWord_eq, assembleWord_eq]
  congr 1
  funext w k
  have e : i * 64 + j * 4 + k = 0 * 64 + (i * 16 + j) * 4 + k := by ring
  rw [e]

theorem rawBlocks_flatten (input : List Nat) (L n : Nat) :
    ((List.range n).map (fun i =>
      (List.range BLOCK_SEQUENCE_LEN).map (fun j => assembleWord input L i j))).flatten =
      (List.range (n * 16)).map (fun q => assembleWord input L 0 q) := by
  have e16 : BLOCK_SEQUENCE_LEN = 16 := rfl
  have hf : (fun i => (List.range 16).map (fun j => assembleWord input L i j)) =
      (fun i => (List.range 16).map (fun t => assembleWord input L 0 (i * 16 + t))) := by
    funext i
    apply List.map_congr_left
    intro j _
    exact assembleWord_shift input L i j
  rw [e16, hf]
  exact flatMap_range_block (fun q => assembleWord input L 0 q) 16 n

theorem length_eq_sixteen {l : List Nat} (h : l.length = 16) :
    ∃ x0 x1 x2 x3 x4 x5 x6 x7 x8 x9 x10 x11 x12 x13 x14 x15,
      l = [x0, x1, x2, x3, x4, x5, x6, x7, x8, x9, x10, x11, x12, x13, x14, x15] := by
  match l, h with
  | [x0, x1, x2, x3, x4, x5, x6, x7, x8, x9, x10, x11, x12, x13, x14, x15], _ =>
    exact ⟨x0, x1, x2, x3, x4, x5, x6, x7, x8, x9, x10, x11, x12, x13, x14, x15, rfl⟩

theorem set_last_two (x : List Nat) (hx : x.length = 16) (lo hi : Nat) :
    (x.set 15 lo).set 14 hi = x.take 14 ++ [hi, lo] := by
  obtain ⟨x0, x1, x2, x3, x4, x5, x6, x7, x8, x9, x10, x11, x12, x13, x14, x15, rfl⟩ :=
    length_eq_sixteen hx
  rfl

theorem flatten_set_last (A : List (List Nat)) (x : List Nat) (hx : x.length = 16)
    (lo hi : Nat) :
    ((A ++ [x]).set A.length ((x.set 15 lo).set 14 hi)).flatten =
      ((A ++ [x]).flatten).take (A.flatten.length + 14) ++ [hi, lo] := by
  rw [List.set_append_right _ _ (Nat.le_refl _), Nat.sub_self, List.set_cons_zero,
    set_last_two x hx, List.flatten_append, List.flatten_append, List.take_append]
  simp

theorem prepareMessage_flatten (input : List Nat) (hpos : 0 < (prepareMessage input).2) :
    (prepareMessage input).1.flatten =
      (List.range ((prepareMessage input).2 * 16 - 2)).map
        (fun q => assembleWord input (strlen input) 0 q) ++
      [0, bitLengthOf (strlen input) % 2^32] := by
  obtain ⟨n, hn⟩ : ∃ n, (prepareMessage input).2 = n + 1 := ⟨_, (Nat.succ_pred_eq_of_pos hpos).symm⟩
  have hbc := prepareMessage_snd input
  rw [hn] at hbc
  rw [hn]
  unfold prepareMessage
  simp only [← hbc, appendLength]
  have hlen : ((List.range n).map (fun i =>
      (List.range BLOCK_SEQUENCE_LEN).map
        (fun j => assembleWord input (strlen input) i j))).length = n := by simp
  rw [List.range_succ, List.map_append, List.map_cons, List.map_nil]
  rw [Nat.add_sub_cancel, List.getD_eq_getElem _ _ (by simp)]
  rw [List.getElem_append_right (by simp)]
  simp only [hlen, Nat.sub_self, List.getElem_cons_zero]
  have hx : ((List.range BLOCK_SEQUENCE_LEN).map
      (fun j => assembleWord input (strlen input) n j)).length = 16 := by
    simp [BLOCK_SEQUENCE_LEN]
  have h := flatten_set_last ((List.range n).map (fun i =>
      (List.range BLOCK_SEQUENCE_LEN).map
        (fun j => assembleWord input (strlen input) i j))) _ hx
    (bitLengthOf (strlen input) % 2^32) 0
  rw [hlen] at h
  have e15 : BLOCK_SEQUENCE_LEN - 1 = 15 := rfl
  have e14 : BLOCK_SEQUENCE_LEN - 2 = 14 := rfl
  rw [e15, e14, h]
  have hr := rawBlocks_flatten input (strlen input) (n + 1)
  rw [List.range_succ, List.map_append, List.map_cons, List.map_nil] at hr
  rw [hr, ← List.map_take, List.take_range]
  have hl2 := rawBlocks_flatten input (strlen input) n
  rw [hl2]
  simp only [List.length_map, List.length_range]
  congr 3
  omega
theorem flatMap_wordBytes_range (input : List Nat) (h : ∀ x ∈ input, x < 256) (L N : Nat) :
    ((List.range N).map (fun q => assembleWord input L 0 q)).flatMap wordBytes =
      (List.range (N * 4)).map (paddedByte input L) := by
  have hf : (fun q => wordBytes (assembleWord input L 0 q)) =
      (fun q => (List.range 4).map (fun t => paddedByte input L (q * 4 + t))) := by
    funext q
    rw [wordBytes_assembleWord input h]
    apply List.map_congr_left
    intro t _
    have e : (0 * 16 + q) * 4 + t = q * 4 + t := by ring
    rw [e]
  rw [← flatMap_range_block (paddedByte input L) 4 N, ← hf]
  simp [List.flatMap, List.map_map, Function.comp_def]

theorem map_paddedByte_range (m : List Nat) (z : Nat) :
    (List.range (m.length + (1 + z))).map (paddedByte m m.length) =
      m ++ [0x80] ++ List.replicate z 0x00 := by
  simp only [List.range_add, List.map_append, List.map_map, Function.comp_def]
  have h1 : (List.range m.length).map (paddedByte m m.length) = m := by
    apply List.ext_getElem
    · simp
    · intro n h₁ h₂
      have hn : n < m.length := h₂
      simp [paddedByte, hn, List.getD_eq_getElem _ _ hn]
  have h2 : (List.range 1).map (fun x => paddedByte m m.length (m.length + x)) = [0x80] := by
    have hr : List.range 1 = [0] := rfl
    rw [hr]
    simp [paddedByte]
  have h3 : (List.range z).map
      (fun x => paddedByte m m.length (m.length + (1 + x))) = List.replicate z 0x00 := by
    apply List.ext_getElem
    · simp
    · intro n h₁ h₂
      have e1 : ¬ (m.length + (1 + n) < m.length) := by omega
      have e2 : ¬ (m.length + (1 + n) = m.length) := by omega
      simp [paddedByte, e1, e2]
  rw [h1, h2, h3, List.append_assoc]

theorem wordBytes_length_words (n : Nat) (h : n < 2^32) :
    [0, n % 2^32].flatMap wordBytes = be64 n := by
  simp only [List.flatMap, List.map_cons, List.map_nil, List.flatten_cons, List.flatten_nil,
    wordBytes, be64, List.append_nil, List.cons_append, List.nil_append]
  congr 1
  · omega
  congr 1
  · omega
  congr 1
  · omega
  congr 1
  · omega
  congr 1
  · omega
  congr 1
  · omega
  congr 1
  · omega
  congr 1
  omega

theorem bitLengthOf_small (L : Nat) (h : L < 2^29) : bitLengthOf L = 8 * L := by
  unfold bitLengthOf BYTE_LENGTH
  omega

theorem prepareMessage_snd_small (m : List Nat) (hz : ∀ x ∈ m, x ≠ 0) (hL : m.length < 2^29) :
    (prepareMessage m).2 = m.length / 64 + (if m.length % 64 ≤ 55 then 1 else 2) := by
  rw [prepareMessage_snd, strlen_eq_length m hz, blockCountOf_eq _ (by omega)]

theorem serialise_prepareMessage (m : List Nat) (hz : ∀ x ∈ m, x ≠ 0)
    (hb : ∀ x ∈ m, x < 256) (hL : m.length < 2^29) :
    m.length + 1 + 8 ≤ 64 * (prepareMessage m).2 ∧
    serialise (prepareMessage m).1 =
      m ++ [0x80] ++ List.replicate (64 * (prepareMessage m).2 - m.length - 9) 0x00 ++
        be64 (8 * m.length) := by
  have hbc := prepareMessage_snd_small m hz hL
  have hroom : m.length + 1 + 8 ≤ 64 * (prepareMessage m).2 := by
    rw [hbc]
    split <;> omega
  refine ⟨hroom, ?_⟩
  rw [serialise_eq, prepareMessage_flatten m (by omega), List.flatMap_append,
    strlen_eq_length m hz, flatMap_wordBytes_range m hb, bitLengthOf_small _ hL,
    wordBytes_length_words _ (by omega)]
  have e : ((prepareMessage m).2 * 16 - 2) * 4 =
      m.length + (1 + (64 * (prepareMessage m).2 - m.length - 9)) := by omega
  rw [e, map_paddedByte_range]

/-! ## The framed blocks against the specification's frame -/

theorem chunks_append {α : Type} (n : Nat) (hn : 0 < n) (x r : List α) (hx : x.length = n) :
    Spec.chunks n (x ++ r) = x :: Spec.chunks n r := by
  unfold Spec.chunks
  rw [List.length_append, hx, Nat.add_div_left _ hn, List.range_succ_eq_map, List.map_cons,
    List.map_map]
  congr 1
  · simp [hx]
  · apply List.map_congr_left
    intro i _
    have e : Nat.succ i * n = x.length + i * n := by rw [hx, Nat.succ_mul, Nat.add_comm]
    simp only [Function.comp_apply]
    rw [e, List.drop_append]

theorem chunks_flatten {α : Type} (n : Nat) (hn : 0 < n) (l : List (List α))
    (h : ∀ x ∈ l, x.length = n) : Spec.chunks n l.flatten = l := by
  induction l with
  | nil => simp [Spec.chunks]
  | cons x l ih =>
    rw [List.flatten_cons, chunks_append n hn x _ (h x (List.mem_cons_self _ _)),
      ih (fun y hy => h y (List.mem_cons_of_mem _ hy))]

theorem beWord_wordBytes (w : Nat) (h : w < 2^32) : Spec.beWord (wordBytes w) = w := by
  simp only [Spec.beWord, wordBytes, List.foldl_cons, List.foldl_nil]
  omega

theorem words_roundtrip (words : List Nat) (h : ∀ w ∈ words, w < 2^32) :
    (Spec.chunks 4 (words.flatMap wordBytes)).map Spec.beWord = words := by
  unfold List.flatMap
  rw [chunks_flatten 4 (by decide) _ (by
    intro x hx
    obtain ⟨w, _, rfl⟩ := List.mem_map.1 hx
    rfl), List.map_map]
  conv_rhs => rw [← List.map_id words]
  apply List.map_congr_left
  intro w hw
  simp only [Function.comp_apply, id_eq]
  exact beWord_wordBytes w (h w hw)

theorem frame_roundtrip (blocks : List (List Nat)) (hlen : ∀ blk ∈ blocks, blk.length = 16)
    (hw : ∀ w ∈ blocks.flatten, w < 2^32) :
    Spec.chunks 16 ((Spec.chunks 4 (serialise blocks)).map Spec.beWord) = blocks := by
  rw [serialise_eq, words_roundtrip _ hw, chunks_flatten 16 (by decide) _ hlen]

theorem prepareMessage_words_lt (input : List Nat) :
    ∀ w ∈ (prepareMessage input).1.flatten, w < 2^32 := by
  intro w hw
  by_cases hpos : 0 < (prepareMessage input).2
  · rw [prepareMessage_flatten input hpos] at hw
    simp only [List.mem_append, List.mem_map, List.mem_cons, List.mem_singleton,
      List.not_mem_nil, or_false] at hw
    rcases hw with ⟨q, _, rfl⟩ | rfl | rfl
    · exact assembleWord_lt _ _ _ _
    · decide
    · exact Nat.mod_lt _ (by decide)
  · have h0 : (prepareMessage input).1 = [] := by
      apply List.eq_nil_of_length_eq_zero
      rw [prepareMessage_length]
      omega
    rw [h0] at hw
    simp at hw

theorem pad_eq_serialise (m : List Nat) (hz : ∀ x ∈ m, x ≠ 0) (hb : ∀ x ∈ m, x < 256)
    (hL : m.length < 2^29) : Spec.pad m = serialise (prepareMessage m).1 := by
  have hbc := prepareMessage_snd_small m hz hL
  rw [(serialise_prepareMessage m hz hb hL).2]
  have e : Spec.zeroBits (8 * m.length) / 8 = 64 * (prepareMessage m).2 - m.length - 9 := by
    rw [hbc]
    unfold Spec.zeroBits
    split <;> omega
  unfold Spec.pad
  simp only [e]

theorem frame_eq_prepareMessage (m : List Nat) (hz : ∀ x ∈ m, x ≠ 0)
    (hb : ∀ x ∈ m, x < 256) (hL : m.length < 2^29) :
    Spec.frame m = (prepareMessage m).1 := by
  unfold Spec.frame
  rw [pad_eq_serialise m hz hb hL,
    frame_roundtrip _ (prepareMessage_block_length m) (prepareMessage_words_lt m)]

/-- C1: for a message without zero bytes and with fewer than 2^29 bytes,
`calculateHash` returns the SHA-256 digest of the message (padding, 64-word
schedule, 64 rounds from the standard initial value, chained over the blocks)
as 64 lowercase hexadecimal characters. -/
theorem calculateHash_eq_sha256 (m : List Nat) (hm : ∀ x ∈ m, x ≠ 0 ∧ x < 256)
    (hL : m.length < 2^29) : calculateHash m = Spec.digest m := by
  rw [calculateHash_eq, generateDigest_eq _ (foldl_compress_words _ Spec.H0 rfl H0_lt).2,
    ← frame_eq_prepareMessage m (fun x hx => (hm x hx).1) (fun x hx => (hm x hx).2) hL]
  rfl

theorem calculateHash_eq_sha256_witness :
    (∀ x ∈ [0x61, 0x62, 0x63], x ≠ 0 ∧ x < 256) ∧ [0x61, 0x62, 0x63].length < 2^29 ∧
    calculateHash [0x61, 0x62, 0x63] = Spec.digest [0x61, 0x62, 0x63] :=
  ⟨by decide, by decide, calculateHash_eq_sha256 [0x61, 0x62, 0x63] (by decide) (by decide)⟩

/-- C6: for a message of `L` bytes without zero bytes and with `L < 2^29`, the
blocks of `prepareMessage`, read back as big-endian bytes, are the message,
the byte 0x80, zero bytes and the 8-byte big-endian encoding of `8*L`; the
stream has `64 * blockCount` bytes and the length words lie behind the
message and the marker. -/
theorem prepareMessage_byte_stream (m : List Nat) (hm : ∀ x ∈ m, x ≠ 0 ∧ x < 256)
    (hL : m.length < 2^29) :
    serialise (prepareMessage m).1 =
      m ++ [0x80] ++ List.replicate (64 * (prepareMessage m).2 - m.length - 9) 0x00 ++
        be64 (8 * m.length) ∧
    (serialise (prepareMessage m).1).length = 64 * (prepareMessage m).2 ∧
    m.length + 1 + 8 ≤ 64 * (prepareMessage m).2 := by
  obtain ⟨hroom, he⟩ :=
    serialise_prepareMessage m (fun x hx => (hm x hx).1) (fun x hx => (hm x hx).2) hL
  refine ⟨he, ?_, hroom⟩
  rw [he]
  simp [be64]
  omega

theorem prepareMessage_byte_stream_witness :
    (∀ x ∈ [0x61, 0x62, 0x63], x ≠ 0 ∧ x < 256) ∧ [0x61, 0x62, 0x63].length < 2^29 ∧
    serialise (prepareMessage [0x61, 0x62, 0x63]).1 =
      [0x61, 0x62, 0x63] ++ [0x80] ++
        List.replicate (64 * (prepareMessage [0x61, 0x62, 0x63]).2 - 3 - 9) 0x00 ++
        be64 (8 * 3) :=
  ⟨by decide, by decide,
    (prepareMessage_byte_stream [0x61, 0x62, 0x63] (by decide) (by decide)).1⟩

/-! ## The two length words -/

theorem lastBlock_eq (input : List Nat) (hpos : 0 < (prepareMessage input).2) :
    ∃ x : List Nat, x.length = 16 ∧
      (prepareMessage input).1.getD ((prepareMessage input).2 - 1) [] =
        (x.set 15 (bitLengthOf (strlen input) % 2^32)).set 14 0 := by
  have hbc := prepareMessage_snd input
  have hraw : ∀ b ∈ (List.range (prepareMessage input).2).map (fun i =>
      (List.range BLOCK_SEQUENCE_LEN).map
        (fun j => assembleWord input (strlen input) i j)), b.length = 16 := by
    intro b hb
    obtain ⟨i, _, rfl⟩ := List.mem_map.1 hb
    simp [BLOCK_SEQUENCE_LEN]
  refine ⟨((List.range (prepareMessage input).2).map (fun i =>
      (List.range BLOCK_SEQUENCE_LEN).map
        (fun j => assembleWord input (strlen input) i j))).getD
          ((prepareMessage input).2 - 1) [], ?_, ?_⟩
  · rw [List.getD_eq_getElem _ _ (by simp; omega)]
    exact hraw _ (List.getElem_mem _)
  · rw [List.getD_eq_getElem _ _ (by rw [prepareMessage_length]; omega)]
    unfold prepareMessage
    simp only [← hbc, appendLength]
    rw [List.getElem_set_self]
    rfl

theorem lastBlockWord_low (input : List Nat) (hpos : 0 < (prepareMessage input).2) :
    lastBlockWord (prepareMessage input) 15 = bitLengthOf (strlen input) % 2^32 := by
  obtain ⟨x, hx, he⟩ := lastBlock_eq input hpos
  unfold lastBlockWord
  rw [he, set_last_two x hx, List.getD_append_right _ _ _ _ (by simp [hx])]
  simp [hx]

theorem lastBlockWord_high (input : List Nat) (hpos : 0 < (prepareMessage input).2) :
    lastBlockWord (prepareMessage input) 14 = 0 := by
  obtain ⟨x, hx, he⟩ := lastBlock_eq input hpos
  unfold lastBlockWord
  rw [he, set_last_two x hx, List.getD_append_right _ _ _ _ (by simp [hx])]
  simp [hx]

theorem blockCount_pos (input : List Nat) (h : 8 * strlen input + 576 < 2^64) :
    0 < (prepareMessage input).2 := by
  rw [prepareMessage_snd, blockCountOf_eq _ h]
  split <;> omega

theorem strlen_replicate_one (n : Nat) : strlen (List.replicate n 0x01) = n := by
  rw [strlen_eq_length _ (fun x hx => by rw [List.eq_of_mem_replicate hx]; decide),
    List.length_replicate]

/-- C7, as the code has it: when the `size_t` sums do not overflow, word 15
of the last block is the low 32 bits of `8*L` and word 14 is zero; word 14 is
the high 32 bits of `8*L` exactly when `L < 2^29`. -/
theorem lastBlock_length_words (input : List Nat) (h : 8 * strlen input + 576 < 2^64) :
    lastBlockWord (prepareMessage input) 15 = 8 * strlen input % 2^32 ∧
    lastBlockWord (prepareMessage input) 14 = 0 ∧
    (lastBlockWord (prepareMessage input) 14 = 8 * strlen input / 2^32 % 2^32 ↔
      strlen input < 2^29) := by
  have hpos := blockCount_pos input h
  have hbl : bitLengthOf (strlen input) = 8 * strlen input := by
    unfold bitLengthOf BYTE_LENGTH
    omega
  rw [lastBlockWord_low input hpos, lastBlockWord_high input hpos, hbl]
  refine ⟨rfl, rfl, ?_⟩
  omega

theorem lastBlock_length_words_witness :
    8 * strlen [0x61, 0x62, 0x63] + 576 < 2^64 ∧
    lastBlockWord (prepareMessage [0x61, 0x62, 0x63]) 15 = 8 * strlen [0x61, 0x62, 0x63] % 2^32 ∧
    lastBlockWord (prepareMessage [0x61, 0x62, 0x63]) 14 = 0 :=
  ⟨by decide, (lastBlock_length_words [0x61, 0x62, 0x63] (by decide)).1,
    (lastBlock_length_words [0x61, 0x62, 0x63] (by decide)).2.1⟩

/-- C7 fails for an input of 2^29 bytes 0x01: the bit length is 2^32, whose
high 32 bits are 1, but word 14 of the last block is 0. -/
theorem lastBlock_high_word_counterexample :
    lastBlockWord (prepareMessage (List.replicate (2^29) 0x01)) 14 ≠
      8 * strlen (List.replicate (2^29) 0x01) / 2^32 % 2^32 := by
  have hs := strlen_replicate_one (2^29)
  have hpos := blockCount_pos (List.replicate (2^29) 0x01) (by rw [hs]; norm_num)
  rw [lastBlockWord_high _ hpos, hs]
  norm_num

/-! ## One iteration of the block loop -/

theorem blockStep_parts (messageBlocks : List (List Nat)) (s : Buffers) (i : Nat) :
    blockStep messageBlocks s i =
      { workingVars := (compressBlock (extendSchedule (messageBlocks.getD i []) s.schedule)
          s.workingVars s.hashValues).1,
        schedule := extendSchedule (messageBlocks.getD i []) s.schedule,
        hashValues := (compressBlock (extendSchedule (messageBlocks.getD i []) s.schedule)
          s.workingVars s.hashValues).2 } := by
  simp only [blockStep, compressBlock, extendSchedule]

theorem compressBlock_eq (schedule workingVars hashValues : List Nat)
    (hw : workingVars.length = 8) (hh : hashValues.length = 8) :
    (compressBlock schedule workingVars hashValues).2 = Spec.compress hashValues schedule := by
  obtain ⟨a, b, c, d, e, f, g, k, hv⟩ := length_eq_eight hh
  have hwv : hashValues.take HASH_ARRAY_LEN ++ workingVars.drop HASH_ARRAY_LEN =
      Spec.Registers.toList ⟨a, b, c, d, e, f, g, k⟩ := by
    rw [List.drop_of_length_le (by simp [hw, HASH_ARRAY_LEN]), List.append_nil,
      List.take_of_length_le (by simp [hh, HASH_ARRAY_LEN]), hv]
    rfl
  unfold compressBlock
  simp only []
  rw [hwv, foldl_roundStep, hashValues_update _ _ hh, hv]
  rfl

/-- C11: one block iteration of `processBlocks` replaces the hash state `H`
by `H[i] + R[i] mod 2^32`, where `R` is the result of the 64 rounds of the
simultaneous update (`T1`, `T2`, then all eight registers at once) that start
from the registers `H`; each round of the code, with its eight in-place
assignments in sequence, is one simultaneous update. -/
theorem compressBlock_simultaneous (H W workingVars : List Nat)
    (hH : H.length = 8) (hw : workingVars.length = 8) :
    (∀ (r : Spec.Registers) (j : Nat),
      roundStep W r.toList j =
        (Spec.round r (roundConstants.getD j 0) (W.getD j 0)).toList) ∧
    (compressBlock W workingVars H).2 =
      List.zipWith (fun x y => (x + y) % 2^32) H
        ((List.range 64).foldl
          (fun r j => Spec.round r (roundConstants.getD j 0) (W.getD j 0))
          { a := H.getD 0 0, b := H.getD 1 0, c := H.getD 2 0, d := H.getD 3 0,
            e := H.getD 4 0, f := H.getD 5 0, g := H.getD 6 0, h := H.getD 7 0 }).toList ∧
    (∀ (messageBlocks : List (List Nat)) (schedule : List Nat) (i : Nat),
      (blockStep messageBlocks
        { workingVars := workingVars, schedule := schedule, hashValues := H } i).hashValues =
      (compressBlock (blockStep messageBlocks
        { workingVars := workingVars, schedule := schedule, hashValues := H } i).schedule
        workingVars H).2) := by
  refine ⟨fun r j => roundStep_toList W r j, ?_, ?_⟩
  · rw [compressBlock_eq W workingVars H hw hH]
    obtain ⟨a, b, c, d, e, f, g, k, rfl⟩ := length_eq_eight hH
    rfl
  · intro messageBlocks schedule i
    rw [blockStep_parts]

theorem compressBlock_simultaneous_witness :
    (compressBlock (List.replicate 64 0) (List.replicate 8 0) initialStates).2 =
      List.zipWith (fun x y => (x + y) % 2^32) initialStates
        ((List.range 64).foldl
          (fun r j => Spec.round r (roundConstants.getD j 0) ((List.replicate 64 0).getD j 0))
          { a := initialStates.getD 0 0, b := initialStates.getD 1 0,
            c := initialStates.getD 2 0, d := initialStates.getD 3 0,
            e := initialStates.getD 4 0, f := initialStates.getD 5 0,
            g := initialStates.getD 6 0, h := initialStates.getD 7 0 }).toList :=
  (compressBlock_simultaneous initialStates (List.replicate 64 0) (List.replicate 8 0)
    rfl rfl).2.1
/-! ## The schedule recurrence -/

theorem schedulePrefix_succ (block : List Nat) (n : Nat) :
    Spec.schedulePrefix block (n + 1) =
      Spec.schedulePrefix block n ++
        [Spec.scheduleWord (Spec.schedulePrefix block n) (n + 16)] := by
  unfold Spec.schedulePrefix
  rw [List.range_succ, List.map_append, List.foldl_append]
  rfl

theorem schedulePrefix_length (block : List Nat) (n : Nat) :
    (Spec.schedulePrefix block n).length = block.length + n := by
  induction n with
  | zero => rfl
  | succ n ih => rw [schedulePrefix_succ, List.length_append, ih]; rfl

theorem schedulePrefix_getD (block : List Nat) (m n i : Nat) (hmn : m ≤ n)
    (hi : i < block.length + m) :
    (Spec.schedulePrefix block n).getD i 0 = (Spec.schedulePrefix block m).getD i 0 := by
  induction n with
  | zero =>
    have : m = 0 := by omega
    rw [this]
  | succ n ih =>
    by_cases h : m = n + 1
    · rw [h]
    · rw [schedulePrefix_succ,
        List.getD_append _ _ _ _ (by rw [schedulePrefix_length]; omega)]
      exact ih (by omega)

theorem scheduleWord_prefix (block : List Nat) (m n j : Nat) (hmn : m ≤ n)
    (hj : j ≤ block.length + m) (h16 : 16 ≤ j) :
    Spec.scheduleWord (Spec.schedulePrefix block n) j =
      Spec.scheduleWord (Spec.schedulePrefix block m) j := by
  unfold Spec.scheduleWord
  rw [schedulePrefix_getD block m n (j - 16) hmn (by omega),
    schedulePrefix_getD block m n (j - 15) hmn (by omega),
    schedulePrefix_getD block m n (j - 7) hmn (by omega),
    schedulePrefix_getD block m n (j - 2) hmn (by omega)]

theorem schedulePrefix_recurrence (block : List Nat) (hb : block.length = 16) (n j : Nat)
    (h16 : 16 ≤ j) (hj : j < 16 + n) :
    (Spec.schedulePrefix block n).getD j 0 =
      Spec.scheduleWord (Spec.schedulePrefix block n) j := by
  have e : j - 16 + 16 = j := by omega
  rw [schedulePrefix_getD block (j - 16 + 1) n j (by omega) (by omega),
    scheduleWord_prefix block (j - 16) n j (by omega) (by omega) h16,
    schedulePrefix_succ, e,
    List.getD_append_right _ _ _ _ (by rw [schedulePrefix_length]; omega),
    schedulePrefix_length, hb]
  have e2 : j - (16 + (j - 16)) = 0 := by omega
  rw [e2]
  rfl

theorem extendSchedule_eq (block stale : List Nat) (hb : block.length = 16)
    (hs : stale.length = 64) : extendSchedule block stale = Spec.schedule block :=
  schedule_extension block stale hb hs

/-- C12: for a 16-word block `B`, the schedule that `processBlocks` builds has
64 words, its first 16 words are those of `B`, and every word `j = 16..63` is
`schedule[j-16] + σ0(schedule[j-15]) + schedule[j-7] + σ1(schedule[j-2])`
mod 2^32, with `σ0(x) = rotr(x,7) xor rotr(x,18) xor (x >> 3)` and
`σ1(x) = rotr(x,17) xor rotr(x,19) xor (x >> 10)`. -/
theorem extendSchedule_recurrence (B stale : List Nat) (hB : B.length = 16)
    (hs : stale.length = 64) :
    (extendSchedule B stale).length = 64 ∧
    (∀ j, j < 16 → (extendSchedule B stale).getD j 0 = B.getD j 0) ∧
    (∀ j, 16 ≤ j → j < 64 →
      (extendSchedule B stale).getD j 0 =
        ((extendSchedule B stale).getD (j - 16) 0 +
          LOWERCASE_SIGMA0 ((extendSchedule B stale).getD (j - 15) 0) +
          (extendSchedule B stale).getD (j - 7) 0 +
          LOWERCASE_SIGMA1 ((extendSchedule B stale).getD (j - 2) 0)) % 2^32) ∧
    (∀ x, LOWERCASE_SIGMA0 x = Spec.rotr x 7 ^^^ Spec.rotr x 18 ^^^ (x >>> 3)) ∧
    (∀ x, LOWERCASE_SIGMA1 x = Spec.rotr x 17 ^^^ Spec.rotr x 19 ^^^ (x >>> 10)) ∧
    (∀ (messageBlocks : List (List Nat)) (workingVars hashValues : List Nat) (i : Nat),
      messageBlocks.getD i [] = B →
      (blockStep messageBlocks
        { workingVars := workingVars, schedule := stale, hashValues := hashValues } i).schedule =
      extendSchedule B stale) := by
  refine ⟨?_, ?_, ?_, fun _ => rfl, fun _ => rfl, ?_⟩
  · rw [extendSchedule_eq B stale hB hs]
    exact schedule_length B hB
  · rw [extendSchedule_eq B stale hB hs]
    intro j hj
    exact schedulePrefix_getD B 0 48 j (Nat.zero_le _) (by omega)
  · rw [extendSchedule_eq B stale hB hs]
    intro j h16 hj
    exact schedulePrefix_recurrence B hB 48 j h16 (by omega)
  · intro messageBlocks workingVars hashValues i hi
    rw [blockStep_parts, hi]

theorem extendSchedule_recurrence_witness :
    (List.range 16).length = 16 ∧ (List.replicate 64 0).length = 64 ∧
    (extendSchedule (List.range 16) (List.replicate 64 0)).length = 64 :=
  ⟨rfl, rfl, (extendSchedule_recurrence (List.range 16) (List.replicate 64 0) rfl rfl).1⟩
/-! ## The chaining over the blocks and the padding length -/

/-- C13: for blocks of 16 words and a buffer `hashValues` of 8 words, the state
that `processBlocks` leaves in `hashValues` is the left fold of the per-block
step (schedule, then compress) over the blocks, from the fixed initial state;
it is the same for every prior content of `hashValues` and of the two local
arrays. -/
theorem processBlocks_fold (blocks : List (List Nat)) (hv hv' workingVars schedule : List Nat)
    (hb : ∀ blk ∈ blocks, blk.length = 16) (hh : hv.length = 8) (hh' : hv'.length = 8)
    (hw : workingVars.length = 8) (hs : schedule.length = 64) :
    processBlocks blocks blocks.length hv =
      blocks.foldl (fun state block => Spec.compress state (Spec.schedule block))
        [0x6a09e667, 0xbb67ae85, 0x3c6ef372, 0xa54ff53a,
         0x510e527f, 0x9b05688c, 0x1f83d9ab, 0x5be0cd19] ∧
    processBlocks blocks blocks.length hv' = processBlocks blocks blocks.length hv ∧
    processBlocksFrom workingVars schedule blocks blocks.length hv' =
      processBlocks blocks blocks.length hv := by
  rw [processBlocks_eq blocks hv hb hh, processBlocks_eq blocks hv' hb hh',
    processBlocksFrom_eq workingVars schedule blocks hv' hb hw hs hh']
  exact ⟨rfl, rfl, rfl⟩

theorem processBlocks_fold_witness :
    processBlocks [List.range 16] [List.range 16].length (List.replicate 8 7) =
      processBlocks [List.range 16] [List.range 16].length (List.replicate 8 0) :=
  (processBlocks_fold [List.range 16] (List.replicate 8 0) (List.replicate 8 7)
    (List.replicate 8 1) (List.replicate 64 2) (by decide) rfl rfl rfl rfl).2.1

/-- C14: for a message of `L` bytes, the value of `paddingBits`, computed with
the wrapping `size_t` subtraction, is the unique `k ≤ 511` with
`8*L + 1 + k ≡ 448 (mod 512)`, and `8*L + 1 + paddingBits + 64` is a multiple
of 512; this holds whether or not `8*L > 447` makes the subtraction wrap (and
also when `8*L` itself wraps, since 512 divides 2^64). -/
theorem paddingBits_unique (L : Nat) :
    paddingBitsOf (bitLengthOf L) ≤ 511 ∧
    (8 * L + 1 + paddingBitsOf (bitLengthOf L)) % 512 = 448 ∧
    (∀ k, k ≤ 511 → (8 * L + 1 + k) % 512 = 448 → k = paddingBitsOf (bitLengthOf L)) ∧
    (8 * L + 1 + paddingBitsOf (bitLengthOf L) + 64) % 512 = 0 := by
  unfold paddingBitsOf bitLengthOf BLOCK_SIZE BYTE_LENGTH
  refine ⟨by omega, by omega, ?_, by omega⟩
  intro k hk hmod
  omega

/-! ## The bit operations -/

theorem testBit_of_lt_word (x i : Nat) (hx : x < 2^32) (hi : 32 ≤ i) : x.testBit i = false :=
  Nat.testBit_lt_two_pow (Nat.lt_of_lt_of_le hx (Nat.pow_le_pow_right (by decide) hi))

theorem ROTATE_RIGHT_lt (x n : Nat) (hx : x < 2^32) : ROTATE_RIGHT x n < 2^32 := by
  unfold ROTATE_RIGHT
  apply Nat.or_lt_two_pow
  · rw [Nat.shiftRight_eq_div_pow]
    exact Nat.lt_of_le_of_lt (Nat.div_le_self _ _) hx
  · exact Nat.mod_lt _ (by decide)

theorem ROTATE_RIGHT_testBit (x n i : Nat) (hx : x < 2^32) (hn : n < 32) (hi : i < 32) :
    (ROTATE_RIGHT x n).testBit i = x.testBit ((i + n) % 32) := by
  have e32 : (4 <<< 3) = 32 := rfl
  unfold ROTATE_RIGHT
  rw [e32, Nat.testBit_or, Nat.testBit_shiftRight, Nat.testBit_mod_two_pow,
    Nat.testBit_shiftLeft]
  by_cases h : i + n < 32
  · have e1 : (i + n) % 32 = n + i := by omega
    have e2 : ¬ (i ≥ 32 - n) := by omega
    simp [e1, e2]
  · have e1 : (i + n) % 32 = i - (32 - n) := by omega
    have e2 : i ≥ 32 - n := by omega
    have e3 : x.testBit (n + i) = false := testBit_of_lt_word x (n + i) hx (by omega)
    simp [e1, e2, e3, hi]

/-- C16: for a 32-bit word `x` and `0 < n < 32`, `ROTATE_RIGHT(x, n)` is a
32-bit word whose bit `i` is bit `(i + n) mod 32` of `x`, for `i = 0..31`, and
rotating by `n` and then by `32 - n` gives `x` back. -/
theorem ROTATE_RIGHT_rotation (x n : Nat) (hx : x < 2^32) (h0 : 0 < n) (hn : n < 32) :
    ROTATE_RIGHT x n < 2^32 ∧
    (∀ i, i < 32 → (ROTATE_RIGHT x n).testBit i = x.testBit ((i + n) % 32)) ∧
    ROTATE_RIGHT (ROTATE_RIGHT x n) (32 - n) = x := by
  refine ⟨ROTATE_RIGHT_lt x n hx, fun i hi => ROTATE_RIGHT_testBit x n i hx hn hi, ?_⟩
  apply Nat.eq_of_testBit_eq
  intro i
  by_cases hi : i < 32
  · rw [ROTATE_RIGHT_testBit _ _ i (ROTATE_RIGHT_lt x n hx) (by omega) hi,
      ROTATE_RIGHT_testBit x n _ hx hn (Nat.mod_lt _ (by decide))]
    have e : ((i + (32 - n)) % 32 + n) % 32 = i := by omega
    rw [e]
  · rw [testBit_of_lt_word _ i (ROTATE_RIGHT_lt _ _ (ROTATE_RIGHT_lt x n hx)) (by omega),
      testBit_of_lt_word x i hx (by omega)]

theorem ROTATE_RIGHT_rotation_witness :
    0x80000001 < 2^32 ∧ 0 < 1 ∧ 1 < 32 ∧
    ROTATE_RIGHT (ROTATE_RIGHT 0x80000001 1) (32 - 1) = 0x80000001 :=
  ⟨by decide, by decide, by decide,
    (ROTATE_RIGHT_rotation 0x80000001 1 (by decide) (by decide) (by decide)).2.2⟩

theorem complement_testBit (x i : Nat) (hx : x < 2^32) :
    (2^32 - 1 - x).testBit i = (decide (i < 32) && !x.testBit i) := by
  have e : 2^32 - 1 - x = 2^32 - (x + 1) := by omega
  rw [e, Nat.testBit_two_pow_sub_succ hx]

theorem CHOOSE_testBit (x y z i : Nat) (hx : x < 2^32) (hz : z < 2^32) :
    (CHOOSE x y z).testBit i = if x.testBit i then y.testBit i else z.testBit i := by
  unfold CHOOSE
  rw [Nat.testBit_xor, Nat.testBit_and, Nat.testBit_and, complement_testBit x i hx]
  by_cases hi : i < 32
  · cases x.testBit i <;> cases y.testBit i <;> cases z.testBit i <;> simp [hi]
  · rw [testBit_of_lt_word x i hx (by omega), testBit_of_lt_word z i hz (by omega)]
    simp

theorem MAJORITY_testBit (x y z i : Nat) :
    (MAJORITY x y z).testBit i =
      decide (2 ≤ (x.testBit i).toNat + (y.testBit i).toNat + (z.testBit i).toNat) := by
  unfold MAJORITY
  rw [Nat.testBit_xor, Nat.testBit_xor, Nat.testBit_and, Nat.testBit_and, Nat.testBit_and]
  cases x.testBit i <;> cases y.testBit i <;> cases z.testBit i <;> rfl

/-- C19: for 32-bit words, bit `i` of `CHOOSE(x,y,z)` is bit `i` of `y` where
bit `i` of `x` is 1 and bit `i` of `z` where it is 0, and `CHOOSE` is also
`(x & y) | (~x & z)`; bit `i` of `MAJORITY(x,y,z)` is 1 exactly when at least
two of the three bits are 1, `MAJORITY` is also `(x & y) | (x & z) | (y & z)`,
and it is symmetric in its three arguments. -/
theorem CHOOSE_MAJORITY_bitwise (x y z : Nat) (hx : x < 2^32) (hz : z < 2^32) :
    (∀ i, (CHOOSE x y z).testBit i = if x.testBit i then y.testBit i else z.testBit i) ∧
    CHOOSE x y z = (x &&& y) ||| ((2^32 - 1 - x) &&& z) ∧
    (∀ i, (MAJORITY x y z).testBit i =
      decide (2 ≤ (x.testBit i).toNat + (y.testBit i).toNat + (z.testBit i).toNat)) ∧
    MAJORITY x y z = (x &&& y) ||| (x &&& z) ||| (y &&& z) ∧
    MAJORITY x y z = MAJORITY y x z ∧ MAJORITY x y z = MAJORITY x z y ∧
    MAJORITY x y z = MAJORITY z y x := by
  refine ⟨fun i => CHOOSE_testBit x y z i hx hz, ?_, fun i => MAJORITY_testBit x y z i,
    ?_, ?_, ?_, ?_⟩
  · apply Nat.eq_of_testBit_eq
    intro i
    rw [CHOOSE_testBit x y z i hx hz, Nat.testBit_or, Nat.testBit_and, Nat.testBit_and,
      complement_testBit x i hx]
    by_cases hi : i < 32
    · cases x.testBit i <;> cases y.testBit i <;> cases z.testBit i <;> simp [hi]
    · rw [testBit_of_lt_word x i hx (by omega), testBit_of_lt_word z i hz (by omega)]
      simp
  · apply Nat.eq_of_testBit_eq
    intro i
    rw [MAJORITY_testBit, Nat.testBit_or, Nat.testBit_or, Nat.testBit_and, Nat.testBit_and,
      Nat.testBit_and]
    cases x.testBit i <;> cases y.testBit i <;> cases z.testBit i <;> rfl
  · apply Nat.eq_of_testBit_eq
    intro i
    rw [MAJORITY_testBit, MAJORITY_testBit]
    cases x.testBit i <;> cases y.testBit i <;> cases z.testBit i <;> rfl
  · apply Nat.eq_of_testBit_eq
    intro i
    rw [MAJORITY_testBit, MAJORITY_testBit]
    cases x.testBit i <;> cases y.testBit i <;> cases z.testBit i <;> rfl
  · apply Nat.eq_of_testBit_eq
    intro i
    rw [MAJORITY_testBit, MAJORITY_testBit]
    cases x.testBit i <;> cases y.testBit i <;> cases z.testBit i <;> rfl

theorem CHOOSE_MAJORITY_bitwise_witness :
    0xf0f0f0f0 < 2^32 ∧ 0x55555555 < 2^32 ∧
    CHOOSE 0xf0f0f0f0 0x12345678 0x55555555 =
      (0xf0f0f0f0 &&& 0x12345678) ||| ((2^32 - 1 - 0xf0f0f0f0) &&& 0x55555555) :=
  ⟨by decide, by decide,
    (CHOOSE_MAJORITY_bitwise 0xf0f0f0f0 0x12345678 0x55555555 (by decide) (by decide)).2.1⟩

/-! ## One round is a bijection -/

theorem wordState_cons8 (a b c d e f g h : Nat) :
    WordState [a, b, c, d, e, f, g, h] ↔
      a < 2^32 ∧ b < 2^32 ∧ c < 2^32 ∧ d < 2^32 ∧ e < 2^32 ∧ f < 2^32 ∧ g < 2^32 ∧ h < 2^32 := by
  simp [WordState]

theorem roundStep_cons8 (schedule : List Nat) (j a b c d e f g h : Nat) :
    roundStep schedule [a, b, c, d, e, f, g, h] j =
      [((h + SIGMA1 e + CHOOSE e f g + roundConstants.getD j 0 + schedule.getD j 0) % 2^32 +
          (SIGMA0 a + MAJORITY a b c) % 2^32) % 2^32,
        a, b, c,
        (d + (h + SIGMA1 e + CHOOSE e f g + roundConstants.getD j 0 + schedule.getD j 0)
          % 2^32) % 2^32,
        e, f, g] :=
  rfl

theorem roundInverse_cons8 (k w a b c d e f g h : Nat) :
    roundInverse k w [a, b, c, d, e, f, g, h] =
      [b, c, d,
        (e + (2^32 - (a + (2^32 - (SIGMA0 b + MAJORITY b c d) % 2^32)) % 2^32)) % 2^32,
        f, g, h,
        ((a + (2^32 - (SIGMA0 b + MAJORITY b c d) % 2^32)) % 2^32 +
          (2^32 - (SIGMA1 f + CHOOSE f g h + k + w) % 2^32)) % 2^32] :=
  rfl

theorem roundInverse_roundStep (schedule : List Nat) (j : Nat) (wv : List Nat)
    (hwv : WordState wv) :
    WordState (roundStep schedule wv j) ∧
    roundInverse (roundConstants.getD j 0) (schedule.getD j 0) (roundStep schedule wv j) = wv := by
  obtain ⟨a, b, c, d, e, f, g, h, rfl⟩ := length_eq_eight hwv.1
  rw [wordState_cons8] at hwv
  obtain ⟨ha, hb, hc, hd, he, hf, hg, hh⟩ := hwv
  rw [roundStep_cons8, roundInverse_cons8, wordState_cons8]
  refine ⟨⟨Nat.mod_lt _ (by decide), ha, hb, hc, Nat.mod_lt _ (by decide), he, hf, hg⟩, ?_⟩
  generalize SIGMA1 e = s1
  generalize CHOOSE e f g = ch
  generalize SIGMA0 a = s0
  generalize MAJORITY a b c = mj
  generalize roundConstants.getD j 0 = k
  generalize schedule.getD j 0 = w
  simp only [List.cons.injEq, and_true, true_and]
  constructor <;> omega

theorem roundStep_roundInverse (schedule : List Nat) (j : Nat) (wv : List Nat)
    (hwv : WordState wv) :
    WordState (roundInverse (roundConstants.getD j 0) (schedule.getD j 0) wv) ∧
    roundStep schedule (roundInverse (roundConstants.getD j 0) (schedule.getD j 0) wv) j =
      wv := by
  obtain ⟨a, b, c, d, e, f, g, h, rfl⟩ := length_eq_eight hwv.1
  rw [wordState_cons8] at hwv
  obtain ⟨ha, hb, hc, hd, he, hf, hg, hh⟩ := hwv
  rw [roundInverse_cons8, roundStep_cons8, wordState_cons8]
  refine ⟨⟨hb, hc, hd, Nat.mod_lt _ (by decide), hf, hg, hh, Nat.mod_lt _ (by decide)⟩, ?_⟩
  generalize SIGMA1 f = s1
  generalize CHOOSE f g h = ch
  generalize SIGMA0 b = s0
  generalize MAJORITY b c d = mj
  generalize roundConstants.getD j 0 = k
  generalize schedule.getD j 0 = w
  simp only [List.cons.injEq, and_true, true_and]
  constructor <;> omega

/-- C18: for a round constant `k` and a schedule word `w`, the body of the
main compression loop at a round `j` with `roundConstants[j] = k` and
`schedule[j] = w` is a bijection on the states of eight 32-bit registers:
`roundInverse k w` recovers the registers before the round from those after
it, every state is the image of one, and two different states never have the
same image. -/
theorem roundStep_bijective (k w : Nat) (schedule : List Nat) (j : Nat)
    (hk : roundConstants.getD j 0 = k) (hw : schedule.getD j 0 = w) :
    (∀ wv, WordState wv →
      WordState (roundStep schedule wv j) ∧ roundInverse k w (roundStep schedule wv j) = wv) ∧
    (∀ wv, WordState wv →
      WordState (roundInverse k w wv) ∧ roundStep schedule (roundInverse k w wv) j = wv) ∧
    (∀ wv wv', WordState wv → WordState wv' →
      roundStep schedule wv j = roundStep schedule wv' j → wv = wv') := by
  subst hk hw
  refine ⟨fun wv h => roundInverse_roundStep schedule j wv h,
    fun wv h => roundStep_roundInverse schedule j wv h, ?_⟩
  intro wv wv' h h' he
  rw [← (roundInverse_roundStep schedule j wv h).2, he,
    (roundInverse_roundStep schedule j wv' h').2]

theorem roundStep_bijective_witness :
    roundConstants.getD 0 0 = 0x428a2f98 ∧ [7].getD 0 0 = 7 ∧ WordState initialStates ∧
    roundInverse 0x428a2f98 7 (roundStep [7] initialStates 0) = initialStates :=
  ⟨rfl, rfl, by decide,
    ((roundStep_bijective 0x428a2f98 7 [7] 0 rfl rfl).1 initialStates (by decide)).2⟩

/-! ## The groups of the digest -/

theorem hexValue_digitChar (d : Nat) (h : d < 16) : hexValue (Nat.digitChar d) = d := by
  revert d
  decide

theorem parseHex_append (cs : List Char) (c : Char) :
    parseHex (cs ++ [c]) = parseHex cs * 16 + hexValue c := by
  unfold parseHex
  rw [List.foldl_append]
  rfl

theorem parseHex_hexFixed (k n : Nat) : parseHex (hexFixed k n) = n % 16 ^ k := by
  induction k generalizing n with
  | zero => simp [hexFixed, parseHex, Nat.mod_one]
  | succ k ih =>
    rw [hexFixed, parseHex_append, ih, hexValue_digitChar _ (Nat.mod_lt _ (by decide)),
      Nat.pow_succ, Nat.mul_comm (16 ^ k) 16, Nat.mod_mul]
    omega

theorem drop_take_flatten {α : Type} (n : Nat) (l : List (List α))
    (h : ∀ x ∈ l, x.length = n) (i : Nat) (hi : i < l.length) :
    (l.flatten.drop (n * i)).take n = l[i] := by
  induction l generalizing i with
  | nil => simp at hi
  | cons x l ih =>
    have hx : x.length = n := h x (List.mem_cons_self _ _)
    cases i with
    | zero => simp [List.take_left' hx]
    | succ i =>
      have e : n * (i + 1) = x.length + n * i := by rw [hx, Nat.mul_succ, Nat.add_comm]
      rw [List.flatten_cons, e, List.drop_append, List.getElem_cons_succ]
      exact ih (fun y hy => h y (List.mem_cons_of_mem _ hy)) i (by simpa using hi)

theorem digestGroup_format (S : List Nat) (i : Nat) (hi : i < 8) :
    digestGroup (Spec.format S) i = hexFixed 8 (S.getD i 0) := by
  unfold digestGroup Spec.format List.flatMap
  rw [drop_take_flatten 8 _ (by
    intro x hx
    obtain ⟨j, _, rfl⟩ := List.mem_map.1 hx
    exact hexFixed_length 8 _) i (by simpa using hi)]
  simp

theorem wordState_getD_lt (S : List Nat) (hS : WordState S) (i : Nat) : S.getD i 0 < 2^32 := by
  by_cases hi : i < S.length
  · rw [List.getD_eq_getElem _ _ hi]
    exact hS.2 _ (List.getElem_mem _)
  · rw [List.getD_eq_default _ _ (by omega)]
    decide

theorem parse_digestGroup (S : List Nat) (hS : WordState S) (i : Nat) (hi : i < 8) :
    parseHex (digestGroup (generateDigest S) i) = S.getD i 0 := by
  rw [generateDigest_eq S hS.2, digestGroup_format S i hi, parseHex_hexFixed]
  have := wordState_getD_lt S hS i
  omega

/-- C15: for a state `S` of eight 32-bit words, the string of `generateDigest`
has 64 characters; its group `i` (characters `8*i .. 8*i+7`) is the lowercase
hexadecimal numeral of `S[i]`, most significant digit first, padded on the
left with the character 0 to 8 digits; parsing group `i` as a base-16 number
gives `S[i]`; and two states with the same string are equal. -/
theorem generateDigest_groups (S S' : List Nat) (hS : WordState S) (hS' : WordState S') :
    (generateDigest S).length = 64 ∧
    (∀ i, i < 8 → digestGroup (generateDigest S) i =
      List.replicate (8 - (Nat.toDigits 16 (S.getD i 0)).length) '0' ++
        Nat.toDigits 16 (S.getD i 0)) ∧
    (∀ i, i < 8 → parseHex (digestGroup (generateDigest S) i) = S.getD i 0) ∧
    (generateDigest S = generateDigest S' → S = S') := by
  refine ⟨?_, ?_, fun i hi => parse_digestGroup S hS i hi, ?_⟩
  · rw [generateDigest_eq S hS.2]
    exact format_length S
  · intro i hi
    rw [generateDigest_eq S hS.2, digestGroup_format S i hi,
      ← streamHex_eq _ (wordState_getD_lt S hS i)]
    rfl
  · intro he
    apply List.ext_getElem (by rw [hS.1, hS'.1])
    intro i h1 h2
    have hi : i < 8 := by rw [← hS.1]; exact h1
    have e1 := parse_digestGroup S hS i hi
    have e2 := parse_digestGroup S' hS' i hi
    rw [he, e2, List.getD_eq_getElem _ _ h1, List.getD_eq_getElem _ _ h2] at e1
    exact e1.symm

theorem generateDigest_groups_witness :
    WordState initialStates ∧ WordState (List.replicate 8 0) ∧
    (generateDigest initialStates).length = 64 :=
  ⟨by decide, by decide,
    (generateDigest_groups initialStates (List.replicate 8 0) (by decide) (by decide)).1⟩

/-! ## Injectivity of the framing -/

theorem blockCount_room (L : Nat) (h : 8 * L + 576 < 2^64) :
    0 < blockCountOf (bitLengthOf L) (paddingBitsOf (bitLengthOf L)) ∧
    L + 1 ≤ (blockCountOf (bitLengthOf L) (paddingBitsOf (bitLengthOf L)) * 16 - 2) * 4 := by
  rw [blockCountOf_eq L h]
  split <;> omega

theorem paddedByte_at_length (m : List Nat) : paddedByte m m.length m.length = 0x80 := by
  simp [paddedByte]

theorem paddedByte_after_length (m : List Nat) (idx : Nat) (h : m.length < idx) :
    paddedByte m m.length idx = 0x00 := by
  have e1 : ¬ idx < m.length := by omega
  have e2 : ¬ idx = m.length := by omega
  simp [paddedByte, e1, e2]

theorem paddedByte_before_length (m : List Nat) (idx : Nat) (h : idx < m.length) :
    paddedByte m m.length idx = m[idx] := by
  simp [paddedByte, h, List.getD_eq_getElem _ _ h]

theorem length_le_of_paddedByte (m1 m2 : List Nat) (M : Nat)
    (hM : m2.length + 1 ≤ M)
    (hp : ∀ idx, idx < M → paddedByte m1 m1.length idx = paddedByte m2 m2.length idx) :
    m2.length ≤ m1.length := by
  by_contra hlt
  have hlt : m1.length < m2.length := by omega
  have e := hp m2.length (by omega)
  rw [paddedByte_after_length m1 _ hlt, paddedByte_at_length] at e
  exact absurd e (by decide)

theorem prepareMessage_inj (m1 m2 : List Nat)
    (hz1 : ∀ x ∈ m1, x ≠ 0) (hb1 : ∀ x ∈ m1, x < 256)
    (hz2 : ∀ x ∈ m2, x ≠ 0) (hb2 : ∀ x ∈ m2, x < 256)
    (hL1 : 8 * m1.length + 576 < 2^64) (hL2 : 8 * m2.length + 576 < 2^64)
    (h : prepareMessage m1 = prepareMessage m2) : m1 = m2 := by
  have hs1 := strlen_eq_length m1 hz1
  have hs2 := strlen_eq_length m2 hz2
  have hbc : (prepareMessage m1).2 = (prepareMessage m2).2 := congrArg Prod.snd h
  have hr1 := blockCount_room m1.length hL1
  have hr2 := blockCount_room m2.length hL2
  rw [← hs1, ← prepareMessage_snd] at hr1
  rw [← hs2, ← prepareMessage_snd] at hr2
  have hf : (prepareMessage m1).1.flatten = (prepareMessage m2).1.flatten := by rw [h]
  rw [prepareMessage_flatten m1 hr1.1, prepareMessage_flatten m2 hr2.1, hbc] at hf
  have hw := (List.append_inj hf (by simp)).1
  have hbytes := congrArg (fun ws => List.flatMap ws wordBytes) hw
  simp only [] at hbytes
  rw [flatMap_wordBytes_range m1 hb1, flatMap_wordBytes_range m2 hb2, hs1, hs2] at hbytes
  have hp : ∀ idx, idx < ((prepareMessage m2).2 * 16 - 2) * 4 →
      paddedByte m1 m1.length idx = paddedByte m2 m2.length idx := by
    intro idx hidx
    exact (List.map_inj_left.1 hbytes) idx (List.mem_range.2 hidx)
  have hp' : ∀ idx, idx < ((prepareMessage m2).2 * 16 - 2) * 4 →
      paddedByte m2 m2.length idx = paddedByte m1 m1.length idx :=
    fun idx hidx => (hp idx hidx).symm
  have hroom1 : m1.length + 1 ≤ ((prepareMessage m2).2 * 16 - 2) * 4 := by
    rw [← hbc, ← hs1]
    exact hr1.2
  have hroom2 : m2.length + 1 ≤ ((prepareMessage m2).2 * 16 - 2) * 4 := by
    rw [← hs2]
    exact hr2.2
  have hle1 := length_le_of_paddedByte m1 m2 _ hroom2 hp
  have hle2 := length_le_of_paddedByte m2 m1 _ hroom1 hp'
  have hlen : m1.length = m2.length := by omega
  apply List.ext_getElem hlen
  intro i h₁ h₂
  have e := hp i (by omega)
  rw [paddedByte_before_length m1 i h₁, paddedByte_before_length m2 i h₂] at e
  exact e

/-- C17: `prepareMessage` is injective on inputs without zero bytes: two
messages without zero bytes for which it returns the same number of blocks
with the same words are equal.  The messages are those a buffer can hold,
`8*L + 576 < 2^64` for the length `L` (fewer than 2^61 - 72 bytes), which is
what keeps the `size_t` sums of `prepareMessage` from wrapping. -/
theorem prepareMessage_injective (m1 m2 : List Nat)
    (h1 : ∀ x ∈ m1, x ≠ 0 ∧ x < 256) (h2 : ∀ x ∈ m2, x ≠ 0 ∧ x < 256)
    (hL1 : 8 * m1.length + 576 < 2^64) (hL2 : 8 * m2.length + 576 < 2^64)
    (h : prepareMessage m1 = prepareMessage m2) : m1 = m2 :=
  prepareMessage_inj m1 m2 (fun x hx => (h1 x hx).1) (fun x hx => (h1 x hx).2)
    (fun x hx => (h2 x hx).1) (fun x hx => (h2 x hx).2) hL1 hL2 h

theorem prepareMessage_injective_witness :
    (∀ x ∈ [0x61, 0x62], x ≠ 0 ∧ x < 256) ∧ 8 * [0x61, 0x62].length + 576 < 2^64 ∧
    prepareMessage [0x61, 0x62] = prepareMessage ([0x61] ++ [0x62]) ∧
    [0x61, 0x62] = [0x61] ++ [0x62] :=
  ⟨by decide, by decide, rfl,
    prepareMessage_injective [0x61, 0x62] ([0x61] ++ [0x62]) (by decide) (by decide)
      (by decide) (by decide) rfl⟩

/-! ## Concrete digests -/

set_option maxRecDepth 100000 in
/-- C2: `calculateHash` of the empty input is the well-known digest of the
empty string. -/
theorem calculateHash_empty :
    calculateHash [] = "e3b0c44298fc1c149afbf4c8996fb92427ae41e4649b934ca495991b7852b855" := by
  decide

set_option maxRecDepth 100000 in
/-- C3: `calculateHash` of the three bytes 0x61 0x62 0x63 is the digest of
the FIPS test vector abc. -/
theorem calculateHash_abc :
    calculateHash [0x61, 0x62, 0x63] =
      "ba7816bf8f01cfea414140de5dae2223b00361a396177a9cb410ff61f20015ad" := by
  decide

set_option maxRecDepth 100000 in
/-- C9: the 56-byte message is framed into two blocks, and the digest that
`calculateHash` returns for it (both blocks compressed) differs from the
formatted hash state obtained by compressing the first framed block only. -/
theorem calculateHash_two_blocks_ne_first_block :
    (prepareMessage twoBlockMessage).2 = 2 ∧
    calculateHash twoBlockMessage ≠
      generateDigest (processBlocks (prepareMessage twoBlockMessage).1 1
        (List.replicate HASH_ARRAY_LEN 0)) := by
  decide

end SecureHash256
